import Mathlib

/-!
# fchdir replacement: file-name helpers and the descriptor registry

A shallow embedding of `libarchive/fchdir.c` (the gnulib `fchdir` replacement together with
the `dirname`/`basename`/`filenamecat` helpers it is built with).

Conventions of the embedding.

* A C string is the list of its characters before the terminating NUL; reading the string
  at the position of the terminator (or, for a guarded look-ahead, past it) yields NUL.
* A pointer into a string is the offset from the start of that string.
* `size_t` quantities are natural numbers: string lengths and descriptor numbers stay far
  below the word size.
* The macros of `dosname.h`, `dirname.h` and `config.h` are a parameter `Config`.
* The operating system (open descriptors, working directory, `errno`, the allocator) is an
  explicit component of the state, and every system call is recorded in a trace.
-/

namespace Fchdir

/-! ## Configuration macros -/

/-- The platform macros used by the source and defined in headers outside of it. -/
structure Config where
  /-- `FILE_SYSTEM_PREFIX_LEN (Filename)`: length of a leading drive prefix. -/
  FILE_SYSTEM_PREFIX_LEN : List Char → Nat
  /-- `ISSLASH (C)`: whether `C` is a directory separator. -/
  ISSLASH : Char → Bool
  /-- `DOUBLE_SLASH_IS_DISTINCT_ROOT`. -/
  DOUBLE_SLASH_IS_DISTINCT_ROOT : Bool
  /-- `FILE_SYSTEM_DRIVE_PREFIX_CAN_BE_RELATIVE`. -/
  FILE_SYSTEM_DRIVE_PREFIX_CAN_BE_RELATIVE : Bool
  /-- `IS_ABSOLUTE_FILE_NAME (F)`. -/
  IS_ABSOLUTE_FILE_NAME : List Char → Bool
  /-- `DIRECTORY_SEPARATOR`. -/
  DIRECTORY_SEPARATOR : Char
  /-- `REPLACE_OPEN_DIRECTORY`. -/
  REPLACE_OPEN_DIRECTORY : Bool

/-- The terminating character of a C string. -/
def NUL : Char := Char.ofNat 0

/-- The character `s[i]` of a C string: NUL at and after the terminator. -/
def charAt (s : List Char) (i : Nat) : Char := s.getD i NUL

/-- Modelled from the spec: the macros of `dosname.h`, `dirname.h` and `config.h`, which are
not part of the source file, in the POSIX configuration: no drive prefix, `/` the only
separator, `//` not a distinct root, a name is absolute when it begins with `/`; and
`REPLACE_OPEN_DIRECTORY` is 0, the default the source file gives it. -/
def posix : Config where
  FILE_SYSTEM_PREFIX_LEN := fun _ => 0
  ISSLASH := fun c => c == '/'
  DOUBLE_SLASH_IS_DISTINCT_ROOT := false
  FILE_SYSTEM_DRIVE_PREFIX_CAN_BE_RELATIVE := false
  IS_ABSOLUTE_FILE_NAME := fun f => charAt f 0 == '/'
  DIRECTORY_SEPARATOR := '/'
  REPLACE_OPEN_DIRECTORY := false

/-! ## File-name helpers -/

/-- The loop `while (ISSLASH (*base)) base++;` of `last_component`: the first argument is
the string from `base` on, the result is the final value of `base`. -/
def skip_slashes (cfg : Config) : List Char → Nat → Nat
  | [], base => base
  | c :: rest, base => if cfg.ISSLASH c then skip_slashes cfg rest (base + 1) else base

/-- The loop `for (p = base; *p; p++)` of `last_component`: the first argument is the string
from `p` on; the result is the final value of `base`. -/
def last_component_scan (cfg : Config) : List Char → Nat → Nat → Bool → Nat
  | [], _, base, _ => base
  | c :: rest, p, base, saw_slash =>
    if cfg.ISSLASH c then last_component_scan cfg rest (p + 1) base true
    else if saw_slash then last_component_scan cfg rest (p + 1) p false
    else last_component_scan cfg rest (p + 1) base saw_slash

/-- The pointer difference `last_component (name) - name`. -/
def last_component_offset (cfg : Config) (name : List Char) : Nat :=
  let start := cfg.FILE_SYSTEM_PREFIX_LEN name
  let base := skip_slashes cfg (name.drop start) start
  last_component_scan cfg (name.drop base) base base false

/-- The string addressed by the pointer that `last_component (name)` returns. -/
def last_component (cfg : Config) (name : List Char) : List Char :=
  name.drop (last_component_offset cfg name)

/-- The loop `for (len = strlen (name); 1 < len && ISSLASH (name[len - 1]); len--)` of
`base_len`, started at `len`. -/
def base_len_strip (cfg : Config) (name : List Char) : Nat → Nat
  | 0 => 0
  | len + 1 =>
    if 1 < len + 1 && cfg.ISSLASH (charAt name len) then base_len_strip cfg name len
    else len + 1

/-- The function `base_len`. -/
def base_len (cfg : Config) (name : List Char) : Nat :=
  let prefix_len := cfg.FILE_SYSTEM_PREFIX_LEN name
  let len := base_len_strip cfg name name.length
  if cfg.DOUBLE_SLASH_IS_DISTINCT_ROOT && len == 1
      && cfg.ISSLASH (charAt name 0) && cfg.ISSLASH (charAt name 1)
      && charAt name 2 == NUL then 2
  else if cfg.FILE_SYSTEM_DRIVE_PREFIX_CAN_BE_RELATIVE && prefix_len != 0
      && len == prefix_len && cfg.ISSLASH (charAt name prefix_len) then prefix_len + 1
  else len

/-- The loop of `dir_len`: `for (length = ...; prefix_length < length; length--)
if (! ISSLASH (file[length - 1])) break;`, started at `length`. -/
def dir_len_strip (cfg : Config) (file : List Char) (prefix_length : Nat) : Nat → Nat
  | 0 => 0
  | length + 1 =>
    if prefix_length < length + 1 then
      if !cfg.ISSLASH (charAt file length) then length + 1
      else dir_len_strip cfg file prefix_length length
    else length + 1

/-- The value of `prefix_length` in `dir_len` once it is advanced beyond the important
leading slashes. -/
def dir_len_prefix_length (cfg : Config) (file : List Char) : Nat :=
  let prefix_length := cfg.FILE_SYSTEM_PREFIX_LEN file
  prefix_length +
    (if prefix_length != 0 then
      (if cfg.FILE_SYSTEM_DRIVE_PREFIX_CAN_BE_RELATIVE
          && cfg.ISSLASH (charAt file prefix_length) then 1 else 0)
    else
      (if cfg.ISSLASH (charAt file 0) then
        (if cfg.DOUBLE_SLASH_IS_DISTINCT_ROOT
            && cfg.ISSLASH (charAt file 1) && !cfg.ISSLASH (charAt file 2) then 2 else 1)
      else 0))

/-- The function `dir_len`. -/
def dir_len (cfg : Config) (file : List Char) : Nat :=
  dir_len_strip cfg file (dir_len_prefix_length cfg file) (last_component_offset cfg file)

/-- The function `mdir_name`; `malloc_ok` tells whether its `malloc` returns a buffer, and
the result is `none` for the NULL it returns otherwise. -/
def mdir_name (cfg : Config) (malloc_ok : Bool) (file : List Char) : Option (List Char) :=
  let length := dir_len cfg file
  let append_dot : Bool :=
    length == 0
      || (cfg.FILE_SYSTEM_DRIVE_PREFIX_CAN_BE_RELATIVE
          && length == cfg.FILE_SYSTEM_PREFIX_LEN file
          && charAt file 2 != NUL && !cfg.ISSLASH (charAt file 2))
  if !malloc_ok then none
  else some (file.take length ++ (if append_dot then ['.'] else []))

/-- The pointer difference `longest_relative_suffix (f) - f`: the loop
`for (f += FILE_SYSTEM_PREFIX_LEN (f); ISSLASH (*f); f++)`. -/
def longest_relative_suffix_offset (cfg : Config) (f : List Char) : Nat :=
  let start := cfg.FILE_SYSTEM_PREFIX_LEN f
  skip_slashes cfg (f.drop start) start

/-- The string addressed by the pointer that `longest_relative_suffix (f)` returns. -/
def longest_relative_suffix (cfg : Config) (f : List Char) : List Char :=
  f.drop (longest_relative_suffix_offset cfg f)

/-- The function `mfile_name_concat`, called with a non-NULL `base_in_result`; `malloc_ok`
tells whether its `malloc` returns a buffer. The result is `none` for NULL, and otherwise
the returned string `p_concat` with the pointer difference `*base_in_result - p_concat`. -/
def mfile_name_concat (cfg : Config) (malloc_ok : Bool) (dir abase : List Char) :
    Option (List Char × Int) :=
  let dirbase_offset := last_component_offset cfg dir
  let dirbase := last_component cfg dir
  let dirbaselen := base_len cfg dirbase
  let dirlen := dirbase_offset + dirbaselen
  let needs_separator : Nat :=
    if dirbaselen != 0 && !cfg.ISSLASH (charAt dirbase (dirbaselen - 1)) then 1 else 0
  let base := longest_relative_suffix cfg abase
  if !malloc_ok then none
  else
    let p : Nat := dirlen + needs_separator
    let base_in_result : Int := (p : Int) - (if cfg.IS_ABSOLUTE_FILE_NAME abase then 1 else 0)
    some (dir.take dirlen ++ List.replicate needs_separator cfg.DIRECTORY_SEPARATOR ++ base,
      base_in_result)

/-! ## Operating system and registry state -/

/-- The values of `errno` that matter here. -/
inductive Errno where
  | EBADF
  | ENOTDIR
  | ENOMEM
  | other (code : Nat)
  deriving DecidableEq, Repr

/-- The system calls the source makes. -/
inductive Call where
  | fstat (fd : Int)
  | close (fd : Int)
  | dup2 (oldfd newfd : Int)
  | getcwd
  | chdir (path : List Char)
  deriving DecidableEq, Repr

/-- The state of the process: the registry of the source file and the part of the
operating system its calls depend on. -/
structure World where
  /-- The array `dirs`; its length is `dirs_allocated`. Slot `fd` is `dirs[fd].name`:
  `none` for NULL, `some s` for a pointer to the string `s`. -/
  dirs : List (Option (List Char))
  /-- The variable `errno`. -/
  errno : Errno
  /-- The descriptor table: `none` for a descriptor that is not open, `some d` for an
  open one, where `d` tells whether it refers to a directory. -/
  open_fds : Nat → Option Bool
  /-- The working directory as `getcwd` finds it, or the error it meets. -/
  cwd : Except Errno (List Char)
  /-- The error `chdir` meets on a path; `none` when the path can be entered. -/
  chdir_error : List Char → Option Errno
  /-- The file system as `chdir` and `getcwd` show it: from the working directory and a
  path that can be entered, the name under which `getcwd` reports the directory the path
  denotes (as `/` for `/home/..`, `/home` for `/home/`). -/
  canonical : Except Errno (List Char) → List Char → List Char
  /-- The error `close` reports on an open descriptor (as `EINTR` or `EIO`); `none` when it
  reports none. -/
  close_error : Nat → Option Errno
  /-- The outcomes of the coming allocation requests, in order (`true`: memory is
  returned); once the list is used up, requests succeed. -/
  allocs : List Bool
  /-- The system calls made so far, most recent first. -/
  trace : List Call

/-- The variable `dirs_allocated`. -/
def dirs_allocated (w : World) : Nat := w.dirs.length

/-- The state of descriptor `fd` in the descriptor table; a negative number is never an
open descriptor. -/
def fd_state (w : World) (fd : Int) : Option Bool :=
  if fd < 0 then none else w.open_fds fd.toNat

/-- One allocation request (`malloc`, `realloc`, or the one inside `strdup` and
`getcwd`): whether memory is returned; failure sets `errno` to `ENOMEM`. -/
def malloc (w : World) : Bool × World :=
  match w.allocs with
  | [] => (true, w)
  | true :: rest => (true, { w with allocs := rest })
  | false :: rest => (false, { w with allocs := rest, errno := Errno.ENOMEM })

/-- The library function `strdup`. -/
def strdup (w : World) (s : List Char) : Option (List Char) × World :=
  match malloc w with
  | (true, w1) => (some s, w1)
  | (false, w1) => (none, w1)

/-- The call `getcwd (NULL, 0)`: the working directory in allocated storage. -/
def getcwd (w : World) : Option (List Char) × World :=
  let w0 := { w with trace := Call.getcwd :: w.trace }
  match w0.cwd with
  | Except.error e => (none, { w0 with errno := e })
  | Except.ok c =>
    match malloc w0 with
    | (true, w1) => (some c, w1)
    | (false, w1) => (none, w1)

/-- The test `fstat (fd, &statbuf) == 0 && S_ISDIR (statbuf.st_mode)`. -/
def fstat_is_dir (w : World) (fd : Int) : Bool × World :=
  let w0 := { w with trace := Call.fstat fd :: w.trace }
  match fd_state w0 fd with
  | none => (false, { w0 with errno := Errno.EBADF })
  | some d => (d, w0)

/-- The system call `close`. On an open descriptor it may report an error and set `errno`;
the descriptor is released all the same. -/
def close (w : World) (fd : Int) : Int × World :=
  let w0 := { w with trace := Call.close fd :: w.trace }
  match fd_state w0 fd with
  | none => (-1, { w0 with errno := Errno.EBADF })
  | some _ =>
    match w0.close_error fd.toNat with
    | none => (0, { w0 with open_fds := Function.update w0.open_fds fd.toNat none })
    | some e =>
      (-1, { w0 with open_fds := Function.update w0.open_fds fd.toNat none, errno := e })

/-- The system call `dup2`. -/
def dup2 (w : World) (oldfd newfd : Int) : Int × World :=
  let w0 := { w with trace := Call.dup2 oldfd newfd :: w.trace }
  match fd_state w0 oldfd with
  | none => (-1, { w0 with errno := Errno.EBADF })
  | some d =>
    if newfd < 0 then (-1, { w0 with errno := Errno.EBADF })
    else if newfd = oldfd then (newfd, w0)
    else (newfd, { w0 with open_fds := Function.update w0.open_fds newfd.toNat (some d) })

/-- The system call `chdir`. The directory the path denotes becomes the working directory;
`getcwd` then reports it under its canonical name, which need not be the path given. -/
def chdir (w : World) (path : List Char) : Int × World :=
  let w0 := { w with trace := Call.chdir path :: w.trace }
  match w0.chdir_error path with
  | some e => (-1, { w0 with errno := e })
  | none => (0, { w0 with cwd := Except.ok (w0.canonical w0.cwd path) })

/-! ## The registry -/

/-- The function `ensure_dirs_slot`. In the branch `fd < dirs_allocated` the string of the
slot is freed and the array itself is not written. The index and the capacity are natural
numbers here; the same computation in the arithmetic of `size_t` is
`ensure_dirs_slot_new_allocated`, which agrees with it on descriptor numbers. -/
def ensure_dirs_slot (w : World) (fd : Nat) : Bool × World :=
  if fd < dirs_allocated w then (true, w)
  else
    let new_allocated :=
      if 2 * dirs_allocated w + 1 ≤ fd then fd + 1 else 2 * dirs_allocated w + 1
    match malloc w with
    | (false, w1) => (false, w1)
    | (true, w1) =>
      (true, { w1 with dirs := w1.dirs ++ List.replicate (new_allocated - dirs_allocated w1) none })

/-- The capacity computed by lines 250 to 252 of `ensure_dirs_slot` in the arithmetic of
`size_t`, whose largest value is `SIZE_MAX`: `new_allocated = 2 * dirs_allocated + 1;
if (new_allocated <= fd) new_allocated = fd + 1;`, every result reduced modulo
`SIZE_MAX + 1`. -/
def ensure_dirs_slot_new_allocated (SIZE_MAX allocated fd : Nat) : Nat :=
  let new_allocated := (2 * allocated + 1) % (SIZE_MAX + 1)
  if new_allocated ≤ fd then (fd + 1) % (SIZE_MAX + 1) else new_allocated

/-- The byte count `new_allocated * sizeof *dirs` that lines 255 and 256 of
`ensure_dirs_slot` pass to `realloc` or `malloc`, in the arithmetic of `size_t`. -/
def ensure_dirs_slot_bytes (SIZE_MAX sizeof_dirs new_allocated : Nat) : Nat :=
  (new_allocated * sizeof_dirs) % (SIZE_MAX + 1)

/-- The function `get_name`. -/
def get_name (cfg : Config) (w : World) (dir : List Char) : Option (List Char) × World :=
  if cfg.IS_ABSOLUTE_FILE_NAME dir then strdup w dir
  else
    match getcwd w with
    | (none, w1) => (none, w1)
    | (some cwd, w1) =>
      if charAt dir 0 == '.' && charAt dir 1 == NUL then (some cwd, w1)
      else
        match malloc w1 with
        | (ok, w2) => ((mfile_name_concat cfg ok cwd dir).map Prod.fst, w2)

/-- The function `_gl_unregister_fd`. -/
def _gl_unregister_fd (w : World) (fd : Int) : World :=
  if 0 ≤ fd && fd < (dirs_allocated w : Int) then { w with dirs := w.dirs.set fd.toNat none }
  else w

/-- The failure exit shared by `_gl_register_fd` and `_gl_register_dup`:
`saved_errno = errno; close (fd); errno = saved_errno;` with the result -1. -/
def close_keeping_errno (w : World) (fd : Int) : Int × World :=
  (-1, { (close w fd).2 with errno := w.errno })

/-- The function `_gl_register_fd`; `none` when its assertion fails. -/
def _gl_register_fd (cfg : Config) (w : World) (fd : Int) (filename : List Char) :
    Option (Int × World) :=
  if !(0 ≤ fd) then none
  else
    match (if cfg.REPLACE_OPEN_DIRECTORY then (true, w) else fstat_is_dir w fd) with
    | (false, w1) => some (fd, w1)
    | (true, w1) =>
      match ensure_dirs_slot w1 fd.toNat with
      | (false, w2) => some (close_keeping_errno w2 fd)
      | (true, w2) =>
        match get_name cfg w2 filename with
        | (none, w3) => some (close_keeping_errno { w3 with dirs := w3.dirs.set fd.toNat none } fd)
        | (some name, w3) => some (fd, { w3 with dirs := w3.dirs.set fd.toNat (some name) })

/-- The function `_gl_register_dup`; `none` when its assertion fails. -/
def _gl_register_dup (w : World) (oldfd newfd : Int) : Option (Int × World) :=
  if !(0 ≤ oldfd && 0 ≤ newfd && oldfd != newfd) then none
  else if oldfd < (dirs_allocated w : Int) && (w.dirs.getD oldfd.toNat none).isSome then
    match ensure_dirs_slot w newfd.toNat with
    | (false, w1) => some (close_keeping_errno w1 newfd)
    | (true, w1) =>
      match w1.dirs.getD oldfd.toNat none with
      | none => none
      | some s =>
        match strdup w1 s with
        | (none, w2) => some (close_keeping_errno { w2 with dirs := w2.dirs.set newfd.toNat none } newfd)
        | (some name, w2) => some (newfd, { w2 with dirs := w2.dirs.set newfd.toNat (some name) })
  else if newfd < (dirs_allocated w : Int) then
    some (newfd, { w with dirs := w.dirs.set newfd.toNat none })
  else some (newfd, w)

/-- The function `_gl_directory_name`: the name returned (`none` for NULL) and the state
it leaves. -/
def _gl_directory_name (w : World) (fd : Int) : Option (List Char) × World :=
  if 0 ≤ fd && fd < (dirs_allocated w : Int) && (w.dirs.getD fd.toNat none).isSome then
    (w.dirs.getD fd.toNat none, w)
  else if 0 ≤ fd then
    match dup2 w fd fd with
    | (r, w1) => if r = fd then (none, { w1 with errno := Errno.ENOTDIR }) else (none, w1)
  else (none, { w with errno := Errno.EBADF })

/-- The function `fchdir`. -/
def fchdir (w : World) (fd : Int) : Int × World :=
  match _gl_directory_name w fd with
  | (some name, w1) => chdir w1 name
  | (none, w1) => (-1, w1)

/-- The registry before the first registration: `dirs` is NULL and `dirs_allocated` is 0;
the operating system side is given. -/
def World.init (errno : Errno) (open_fds : Nat → Option Bool) (cwd : Except Errno (List Char))
    (chdir_error : List Char → Option Errno)
    (canonical : Except Errno (List Char) → List Char → List Char)
    (close_error : Nat → Option Errno) (allocs : List Bool) : World :=
  { dirs := [], errno := errno, open_fds := open_fds, cwd := cwd,
    chdir_error := chdir_error, canonical := canonical, close_error := close_error,
    allocs := allocs, trace := [] }

/-! ## The steps of a registration, hook calls and the process around them -/

/-- The state `_gl_register_fd` is in after its `fstat` found a directory and
`ensure_dirs_slot (fd)` returned, with the result of that call. -/
def register_fd_grown (w : World) (fd : Int) : Bool × World :=
  ensure_dirs_slot { w with trace := Call.fstat fd :: w.trace } fd.toNat

/-- The call `get_name (filename)` that `_gl_register_fd` makes after `register_fd_grown`,
in the POSIX configuration: the name it returns and the state it leaves. -/
def register_fd_named (w : World) (fd : Int) (filename : List Char) :
    Option (List Char) × World :=
  get_name posix (register_fd_grown w fd).2 filename

/-- The calls of the three lifecycle hooks. -/
inductive Hook where
  | register_fd (fd : Int) (filename : List Char)
  | register_dup (oldfd newfd : Int)
  | unregister_fd (fd : Int)
  deriving DecidableEq, Repr

/-- The state one hook call leaves; `none` when the assertion of the hook fails. -/
def hook_step (cfg : Config) (w : World) : Hook → Option World
  | Hook.register_fd fd filename => (_gl_register_fd cfg w fd filename).map Prod.snd
  | Hook.register_dup oldfd newfd => (_gl_register_dup w oldfd newfd).map Prod.snd
  | Hook.unregister_fd fd => some (_gl_unregister_fd w fd)

/-- The state a sequence of hook calls leaves. -/
def hook_run (cfg : Config) : World → List Hook → Option World
  | w, [] => some w
  | w, h :: rest => (hook_step cfg w h).bind (fun w1 => hook_run cfg w1 rest)

/-- Modelled from the spec: the effect of a successful native `open` on the descriptor
table; the wrapper of `open` is not part of the source file. Descriptor `fd` becomes open,
on a directory when `is_dir` holds. -/
def open_descriptor (w : World) (fd : Nat) (is_dir : Bool) : World :=
  { w with open_fds := Function.update w.open_fds fd (some is_dir) }

/-- The events in the life of the descriptors of a process. -/
inductive Event where
  | opened (fd : Nat) (is_dir : Bool) (filename : List Char)
  | duplicated (oldfd newfd : Nat)
  | closed (fd : Nat)
  deriving DecidableEq, Repr

/-- Modelled from the spec: the wrappers of `open`, `dup`/`dup2` and `close`, which are not
part of the source file. A successful open of a descriptor that was not open is followed
by `_gl_register_fd`, a duplication of an open descriptor onto another number by
`_gl_register_dup (old, new)`, and a close by `_gl_unregister_fd`. The result is `none`
for an event that cannot happen in the state. -/
def process_step (cfg : Config) (w : World) : Event → Option World
  | Event.opened fd is_dir filename =>
    if (w.open_fds fd).isNone then
      hook_step cfg (open_descriptor w fd is_dir) (Hook.register_fd fd filename)
    else none
  | Event.duplicated oldfd newfd =>
    if (w.open_fds oldfd).isSome && oldfd != newfd then
      hook_step cfg (dup2 w oldfd newfd).2 (Hook.register_dup oldfd newfd)
    else none
  | Event.closed fd => hook_step cfg (close w fd).2 (Hook.unregister_fd fd)

/-- The state a sequence of events leaves. -/
def process_run (cfg : Config) : World → List Event → Option World
  | w, [] => some w
  | w, e :: rest => (process_step cfg w e).bind (fun w1 => process_run cfg w1 rest)

/-- Every name in the registry is non-empty and begins with `/`. -/
def names_absolute (w : World) : Prop :=
  ∀ i s, w.dirs.getD i none = some s → s ≠ [] ∧ s.head? = some '/'

/-- What `getcwd` returns, if it returns a path, begins with `/`. -/
def cwd_absolute (w : World) : Prop :=
  ∀ c, w.cwd = Except.ok c → c.head? = some '/'

/-- A name is `A ++ R ++ T`, with `R` free of slashes, `T` made of slashes, and `A` empty or
ending in a slash. -/
structure Split (name A R T : List Char) : Prop where
  eq : name = A ++ R ++ T
  run : ∀ c ∈ R, c ≠ '/'
  tail : ∀ c ∈ T, c = '/'
  front : A = [] ∨ A.getLast? = some '/'

/-- The final component of a path as the specification describes it: the last maximal run
of characters other than `/`, the separators after it left out. -/
def spec_final_component (path : List Char) : List Char :=
  ((path.rdropWhile (· == '/')).reverse.takeWhile (· != '/')).reverse

/-- A process with descriptor 3 open on a directory and descriptor 4 open on a regular
file, working directory `/home`, nothing registered yet, and a file system in which
`/home/..` is the root directory. -/
def sample_world : World :=
  { dirs := [], errno := Errno.other 0,
    open_fds := fun n => if n = 3 then some true else if n = 4 then some false else none,
    cwd := Except.ok "/home".toList, chdir_error := fun _ => none,
    canonical := fun _ p => if p = "/home/..".toList then "/".toList else p,
    close_error := fun _ => none, allocs := [true, true, true], trace := [] }

/-- The process of `sample_world` once descriptor 3 is registered for `/home`. -/
def sample_tracked : World :=
  { sample_world with dirs := [none, none, none, some "/home".toList] }

/-- The process of `sample_world` when no memory can be allocated and `close` reports an
error of its own on every descriptor. -/
def sample_no_memory : World :=
  { sample_world with allocs := [false], close_error := fun _ => some (Errno.other 5) }

/-! ## The file-name helpers in the POSIX configuration -/

theorem posix_isslash (c : Char) : posix.ISSLASH c = (c == '/') := rfl

theorem posix_prefix_len (f : List Char) : posix.FILE_SYSTEM_PREFIX_LEN f = 0 := rfl

theorem posix_double_slash : posix.DOUBLE_SLASH_IS_DISTINCT_ROOT = false := rfl

theorem posix_drive_relative : posix.FILE_SYSTEM_DRIVE_PREFIX_CAN_BE_RELATIVE = false := rfl

theorem posix_is_absolute_iff (p : List Char) :
    posix.IS_ABSOLUTE_FILE_NAME p = true ↔ p.head? = some '/' := by
  cases p <;> simp [posix, charAt, NUL]

theorem posix_separator : posix.DIRECTORY_SEPARATOR = '/' := rfl

theorem skip_slashes_posix (l : List Char) (b : Nat) :
    skip_slashes posix l b = b + (l.takeWhile (· == '/')).length := by
  induction l generalizing b with
  | nil => rfl
  | cons c rest ih =>
    unfold skip_slashes
    rw [posix_isslash]
    by_cases hc : (c == '/') = true
    · rw [if_pos hc, ih, List.takeWhile_cons, if_pos hc, List.length_cons]; omega
    · rw [if_neg hc, List.takeWhile_cons, if_neg hc]; rfl

theorem scan_posix (l : List Char) : ∀ (A R T : List Char) (p base : Nat) (saw : Bool),
    p = A.length + R.length + T.length → base = A.length → (saw = true ↔ T ≠ []) →
    R ≠ [] → Split (A ++ R ++ T) A R T →
    ∃ A1 R1 T1, Split (A ++ R ++ T ++ l) A1 R1 T1 ∧ R1 ≠ []
      ∧ last_component_scan posix l p base saw = A1.length := by
  induction l with
  | nil =>
    intro A R T p base saw _ hb _ hR hS
    exact ⟨A, R, T, by simpa using hS, hR, by simp [last_component_scan, hb]⟩
  | cons c rest ih =>
    intro A R T p base saw hp hb hsaw hR hS
    unfold last_component_scan
    rw [posix_isslash]
    by_cases hc : (c == '/') = true
    · rw [if_pos hc]
      have hc1 : c = '/' := by simpa using hc
      obtain ⟨A1, R1, T1, h1, h2, h3⟩ := ih A R (T ++ [c]) (p + 1) base true
        (by simp only [List.length_append, List.length_singleton]; omega) hb (by simp) hR
        ⟨by simp, hS.run, by
          intro x hx
          rcases List.mem_append.mp hx with h | h
          · exact hS.tail x h
          · rw [List.mem_singleton.mp h]; exact hc1, hS.front⟩
      exact ⟨A1, R1, T1, by simpa using h1, h2, h3⟩
    · rw [if_neg hc]
      have hc1 : c ≠ '/' := by simpa using hc
      cases saw with
      | true =>
        have hT : T ≠ [] := hsaw.mp rfl
        simp only [if_true]
        obtain ⟨A1, R1, T1, h1, h2, h3⟩ := ih (A ++ R ++ T) [c] [] (p + 1) p false
          (by simp only [List.length_append, List.length_singleton, List.length_nil]; omega)
          (by simp only [List.length_append]; omega) (by simp) (by simp)
          ⟨by simp, by simpa using hc1, by simp, Or.inr (by
            rw [List.getLast?_append_of_ne_nil _ hT]
            rw [List.getLast?_eq_getLast _ hT]
            exact congrArg some (hS.tail _ (List.getLast_mem hT)))⟩
        exact ⟨A1, R1, T1, by simpa using h1, h2, h3⟩
      | false =>
        have hT : T = [] := by
          by_contra h
          exact absurd (hsaw.mpr h) (by simp)
        subst hT
        simp only [Bool.false_eq_true, if_false]
        obtain ⟨A1, R1, T1, h1, h2, h3⟩ := ih A (R ++ [c]) [] (p + 1) base false
          (by simp only [List.length_append, List.length_singleton, List.length_nil] at hp ⊢; omega)
          hb (by simp) (by simp)
          ⟨by simp, by
            intro x hx
            rcases List.mem_append.mp hx with h | h
            · exact hS.run x h
            · rw [List.mem_singleton.mp h]; exact hc1, by simp, hS.front⟩
        exact ⟨A1, R1, T1, by simpa using h1, h2, h3⟩

theorem last_component_offset_split (name : List Char) :
    ∃ A R T, Split name A R T ∧ last_component_offset posix name = A.length
      ∧ ((R = [] ∧ T = [] ∧ ∀ c ∈ name, c = '/') ∨ R ≠ []) := by
  have hname : name.takeWhile (· == '/') ++ name.dropWhile (· == '/') = name :=
    List.takeWhile_append_dropWhile _ _
  have hS0 : ∀ c ∈ name.takeWhile (· == '/'), c = '/' := by
    intro c hc
    simpa using List.mem_takeWhile_imp hc
  have hdrop : name.drop (name.takeWhile (· == '/')).length = name.dropWhile (· == '/') := by
    have := List.drop_left (name.takeWhile (· == '/')) (name.dropWhile (· == '/'))
    rwa [hname] at this
  have hoff : last_component_offset posix name
      = last_component_scan posix (name.dropWhile (· == '/'))
          (name.takeWhile (· == '/')).length (name.takeWhile (· == '/')).length false := by
    unfold last_component_offset
    simp only [posix_prefix_len, List.drop_zero, skip_slashes_posix, Nat.zero_add, hdrop]
  have hfront : name.takeWhile (· == '/') = [] ∨ (name.takeWhile (· == '/')).getLast? = some '/' := by
    by_cases h : name.takeWhile (· == '/') = []
    · exact Or.inl h
    · right
      rw [List.getLast?_eq_getLast _ h]
      exact congrArg some (hS0 _ (List.getLast_mem h))
  rw [hoff]
  generalize hl : name.dropWhile (· == '/') = l at hname
  generalize name.takeWhile (· == '/') = S0 at hname hS0 hfront
  cases l with
  | nil =>
    refine ⟨S0, [], [], ⟨by simpa using hname.symm, by simp, by simp, hfront⟩, rfl, Or.inl ⟨rfl, rfl, ?_⟩⟩
    intro x hx
    simpa using List.dropWhile_eq_nil_iff.mp hl x hx
  | cons c rest =>
    have hc : c ≠ '/' := by
      have := List.head_dropWhile_not (· == '/') name (by rw [hl]; simp)
      simp only [hl, List.head_cons] at this
      simpa using this
    have hc2 : ¬ ((c == '/') = true) := by simpa using hc
    unfold last_component_scan
    rw [posix_isslash, if_neg hc2]
    simp only [Bool.false_eq_true, if_false]
    obtain ⟨A1, R1, T1, h1, h2, h3⟩ := scan_posix rest S0 [c] [] (S0.length + 1) S0.length false
      (by simp) rfl (by simp) (by simp) ⟨by simp, by simpa using hc, by simp, hfront⟩
    refine ⟨A1, R1, T1, ?_, h3, Or.inr h2⟩
    rw [← hname]
    simpa using h1

theorem scan_le (cfg : Config) (l : List Char) : ∀ (p base : Nat) (saw : Bool), base ≤ p →
    last_component_scan cfg l p base saw ≤ p + l.length := by
  induction l with
  | nil => intro p base saw h; simpa [last_component_scan] using h
  | cons c rest ih =>
    intro p base saw h
    unfold last_component_scan
    simp only [List.length_cons]
    split
    · have := ih (p + 1) base true (by omega); omega
    · split
      · have := ih (p + 1) p false (by omega); omega
      · have := ih (p + 1) base saw (by omega); omega

theorem last_component_offset_le (name : List Char) :
    last_component_offset posix name ≤ name.length := by
  obtain ⟨A, R, T, hS, ho, _⟩ := last_component_offset_split name
  rw [ho, hS.eq]
  simp only [List.length_append]
  omega

theorem last_component_of_split (name A R T : List Char) (hS : Split name A R T)
    (ho : last_component_offset posix name = A.length) : last_component posix name = R ++ T := by
  unfold last_component
  rw [ho, hS.eq, List.append_assoc, List.drop_left]

theorem charAt_append_left (l1 l2 : List Char) (i : Nat) (h : i < l1.length) :
    charAt (l1 ++ l2) i = charAt l1 i := by
  simp [charAt, List.getD_eq_getElem?_getD, List.getElem?_append_left h]

theorem charAt_append_right (l1 l2 : List Char) (i : Nat) (h : l1.length ≤ i) :
    charAt (l1 ++ l2) i = charAt l2 (i - l1.length) := by
  simp [charAt, List.getD_eq_getElem?_getD, List.getElem?_append_right h]

theorem charAt_mem (l : List Char) (i : Nat) (h : i < l.length) : charAt l i ∈ l := by
  simp [charAt, List.getD_eq_getElem?_getD, h]

theorem charAt_last (l : List Char) (h : l ≠ []) : charAt l (l.length - 1) = l.getLast h := by
  simp [charAt, List.getD_eq_getElem?_getD, List.getLast_eq_getElem,
    Nat.sub_lt (List.length_pos.mpr h) Nat.one_pos]

theorem base_len_posix (name : List Char) :
    base_len posix name = base_len_strip posix name name.length := by
  simp [base_len, posix_double_slash, posix_drive_relative]

theorem base_len_strip_run (R T : List Char) (hR : R ≠ []) (hrun : ∀ c ∈ R, c ≠ '/')
    (htail : ∀ c ∈ T, c = '/') : ∀ k, k ≤ T.length →
    base_len_strip posix (R ++ T) (R.length + k) = R.length := by
  have hpos : 0 < R.length := List.length_pos.mpr hR
  intro k
  induction k with
  | zero =>
    intro _
    obtain ⟨n, hn⟩ : ∃ n, R.length = n + 1 := ⟨R.length - 1, by omega⟩
    have hch : charAt (R ++ T) n ≠ '/' := by
      rw [charAt_append_left _ _ _ (by omega)]
      exact hrun _ (charAt_mem R n (by omega))
    rw [Nat.add_zero, hn]
    unfold base_len_strip
    simp [posix_isslash, hch]
  | succ k ih =>
    intro hk
    have hch : charAt (R ++ T) (R.length + k) = '/' := by
      rw [charAt_append_right _ _ _ (by omega)]
      exact htail _ (charAt_mem T _ (by omega))
    rw [← Nat.add_assoc]
    unfold base_len_strip
    rw [posix_isslash, hch]
    have : 1 < R.length + k + 1 := by omega
    simp only [this, decide_True, beq_self_eq_true, Bool.and_self, if_true]
    exact ih (by omega)

theorem base_len_run (R T : List Char) (hR : R ≠ []) (hrun : ∀ c ∈ R, c ≠ '/')
    (htail : ∀ c ∈ T, c = '/') : base_len posix (R ++ T) = R.length := by
  rw [base_len_posix, List.length_append]
  exact base_len_strip_run R T hR hrun htail T.length (Nat.le_refl _)

theorem drop_length_takeWhile (p : Char → Bool) (l : List Char) :
    l.drop (l.takeWhile p).length = l.dropWhile p := by
  have := List.drop_left (l.takeWhile p) (l.dropWhile p)
  rwa [List.takeWhile_append_dropWhile] at this

theorem longest_relative_suffix_posix (f : List Char) :
    longest_relative_suffix posix f = f.dropWhile (· == '/') := by
  unfold longest_relative_suffix longest_relative_suffix_offset
  simp only [posix_prefix_len, List.drop_zero, skip_slashes_posix, Nat.zero_add]
  exact drop_length_takeWhile _ f

theorem rdropWhile_run_tail (A R T : List Char) (hR : R ≠ []) (hrun : ∀ c ∈ R, c ≠ '/')
    (htail : ∀ c ∈ T, c = '/') : (A ++ R ++ T).rdropWhile (· == '/') = A ++ R := by
  have h1 : (A ++ R ++ T).rdropWhile (· == '/') = (A ++ R).rdropWhile (· == '/') := by
    unfold List.rdropWhile
    rw [List.reverse_append (A ++ R) T]
    rw [List.dropWhile_append_of_pos]
    intro a ha
    simpa using htail a (List.mem_reverse.mp ha)
  rw [h1, List.rdropWhile_eq_self_iff]
  intro hl
  have hne : A ++ R ≠ [] := hl
  rw [List.getLast_append_of_ne_nil hR]
  simpa using hrun _ (List.getLast_mem hR)

/-- What `mfile_name_concat` computes in the POSIX configuration, from the decomposition of
`dir`. -/
theorem mfile_name_concat_split (dir abase A R T : List Char) (hS : Split dir A R T)
    (ho : last_component_offset posix dir = A.length) (hR : R ≠ []) :
    mfile_name_concat posix true dir abase
      = some (A ++ R ++ ['/'] ++ abase.dropWhile (· == '/'),
          ((A.length + R.length + 1 : Nat) : Int)
            - (if posix.IS_ABSOLUTE_FILE_NAME abase then 1 else 0)) := by
  have hlc := last_component_of_split dir A R T hS ho
  have hbl := base_len_run R T hR hS.run hS.tail
  have hpos : 0 < R.length := List.length_pos.mpr hR
  have hch : charAt (R ++ T) (R.length - 1) ≠ '/' := by
    rw [charAt_append_left _ _ _ (by omega)]
    exact hS.run _ (charAt_mem R _ (by omega))
  have htake : dir.take (A.length + R.length) = A ++ R := by
    rw [hS.eq, ← List.length_append, List.take_left]
  unfold mfile_name_concat
  simp only [hlc, hbl, ho, longest_relative_suffix_posix, posix_isslash, posix_separator, htake]
  have h1 : (R.length != 0) = true := by simpa using (by omega : R.length ≠ 0)
  have h2 : (charAt (R ++ T) (R.length - 1) == '/') = false := by simpa using hch
  simp [h1, h2]

theorem mfile_name_concat_slashes (dir abase : List Char) (hall : ∀ c ∈ dir, c = '/') :
    mfile_name_concat posix true dir abase
      = some (dir ++ abase.dropWhile (· == '/'),
          ((dir.length : Nat) : Int) - (if posix.IS_ABSOLUTE_FILE_NAME abase then 1 else 0)) := by
  obtain ⟨A, R, T, hS, ho, hcase⟩ := last_component_offset_split dir
  have hR : R = [] := by
    by_contra hne
    have hm : R.getLast hne ∈ dir := by
      rw [hS.eq]; simp [List.getLast_mem hne]
    exact hS.run _ (List.getLast_mem hne) (hall _ hm)
  have hT : T = [] := by
    rcases hcase with ⟨_, h, _⟩ | h
    · exact h
    · exact absurd hR h
  subst hR; subst hT
  have hd : dir = A := by simpa using hS.eq
  have hlc := last_component_of_split dir A [] [] hS ho
  unfold mfile_name_concat
  simp only [hlc, ho, longest_relative_suffix_posix]
  simp [base_len_posix, base_len_strip, hd]

theorem dir_len_strip_le (cfg : Config) (file : List Char) (pl : Nat) :
    ∀ n, dir_len_strip cfg file pl n ≤ n := by
  intro n
  induction n with
  | zero => simp [dir_len_strip]
  | succ n ih =>
    unfold dir_len_strip
    split
    · split
      · exact Nat.le_refl _
      · exact Nat.le_succ_of_le ih
    · exact Nat.le_refl _

theorem dir_len_le (f : List Char) : dir_len posix f ≤ f.length :=
  Nat.le_trans (dir_len_strip_le posix f _ _) (last_component_offset_le f)

theorem mdir_name_posix (f : List Char) :
    mdir_name posix true f
      = some (f.take (dir_len posix f) ++ (if dir_len posix f = 0 then ['.'] else [])) := by
  simp [mdir_name, posix_drive_relative]

/-- C7 (amended): in the POSIX configuration, for every path `f`, when the allocation
succeeds `mdir_name (f)` returns a non-empty string: it is "." when `dir_len (f) = 0`, and
otherwise it is exactly the first `dir_len (f)` characters of `f` (that prefix has length
`dir_len (f)`); when the allocation fails it returns NULL. In particular
`mdir_name ("/usr/lib") = "/usr"`, `mdir_name ("usr") = "."` and `mdir_name ("/") = "/"`. -/
theorem mdir_name_spec (f : List Char) :
    (dir_len posix f = 0 → mdir_name posix true f = some ['.'])
    ∧ (dir_len posix f ≠ 0 → mdir_name posix true f = some (f.take (dir_len posix f))
        ∧ (f.take (dir_len posix f)).length = dir_len posix f)
    ∧ (∃ r, mdir_name posix true f = some r ∧ r ≠ [])
    ∧ mdir_name posix false f = none
    ∧ mdir_name posix true "/usr/lib".toList = some "/usr".toList
    ∧ mdir_name posix true "usr".toList = some ".".toList
    ∧ mdir_name posix true "/".toList = some "/".toList := by
  have hle := dir_len_le f
  refine ⟨?_, ?_, ?_, rfl, by decide, by decide, by decide⟩
  · intro h0
    rw [mdir_name_posix, h0]
    rfl
  · intro hne
    rw [mdir_name_posix, if_neg hne, List.append_nil, List.length_take]
    exact ⟨rfl, Nat.min_eq_left hle⟩
  · rw [mdir_name_posix]
    refine ⟨_, rfl, ?_⟩
    by_cases h0 : dir_len posix f = 0
    · rw [if_pos h0]; simp
    · rw [if_neg h0, List.append_nil]
      intro hnil
      have := congrArg List.length hnil
      rw [List.length_take, Nat.min_eq_left hle] at this
      exact h0 this

/-- C7, counterexample to the claim as first stated (the result is "." exactly when
`dir_len (f) = 0`): `mdir_name ("./a")` is "." although `dir_len ("./a")` is 1. -/
theorem mdir_name_dot_counterexample :
    mdir_name posix true "./a".toList = some ".".toList ∧ dir_len posix "./a".toList = 1 := by
  decide

theorem base_len_strip_general (name : List Char) : ∀ n, n ≤ name.length →
    base_len_strip posix name n
      = max (min 1 n) ((name.take n).rdropWhile (· == '/')).length := by
  intro n
  induction n with
  | zero => intro _; simp [base_len_strip]
  | succ n ih =>
    intro hn
    have hlt : n < name.length := by omega
    have htake : name.take (n + 1) = name.take n ++ [charAt name n] := by
      rw [List.take_succ]
      simp [charAt, List.getD_eq_getElem?_getD, List.getElem?_eq_getElem hlt]
    unfold base_len_strip
    rw [posix_isslash]
    by_cases hc : (charAt name n == '/') = true
    · by_cases h1 : 1 < n + 1
      · simp only [h1, hc, decide_True, Bool.and_self, if_true]
        rw [ih (by omega), htake, List.rdropWhile_concat_pos (· == '/') _ _ hc]
        congr 1
        omega
      · have hn0 : n = 0 := by omega
        subst hn0
        simp only [h1, decide_False, Bool.false_and, Bool.false_eq_true, if_false]
        rw [htake, List.rdropWhile_concat_pos (· == '/') _ _ hc]
        simp
    · simp only [hc, Bool.and_false, Bool.false_eq_true, if_false]
      rw [htake, List.rdropWhile_concat_neg (· == '/') _ _ hc]
      simp only [List.length_append, List.length_take, List.length_singleton]
      omega

theorem base_len_general (name : List Char) :
    base_len posix name = max (min 1 name.length) (name.rdropWhile (· == '/')).length := by
  rw [base_len_posix, base_len_strip_general name name.length (Nat.le_refl _), List.take_length]

theorem spec_final_component_of_split (path A R T : List Char) (hS : Split path A R T)
    (hR : R ≠ []) : spec_final_component path = R := by
  unfold spec_final_component
  rw [hS.eq, rdropWhile_run_tail A R T hR hS.run hS.tail, List.reverse_append]
  have hall : ∀ a ∈ R.reverse, (a != '/') = true := by
    intro a ha
    simpa using hS.run a (List.mem_reverse.mp ha)
  rw [List.takeWhile_append_of_pos hall]
  have hA : A.reverse.takeWhile (· != '/') = [] := by
    rcases hS.front with h | h
    · rw [h]; rfl
    · cases hrev : A.reverse with
      | nil => rfl
      | cons x rest =>
        have hx : x = '/' := by
          have h2 : A.reverse.head? = some '/' := by rw [List.head?_reverse]; exact h
          rw [hrev] at h2
          simpa using h2
        subst hx
        rfl
  rw [hA, List.append_nil, List.reverse_reverse]

/-- C8 (amended): in the POSIX configuration, for every path, `base_len` applied to the
last component of the path, as `last_component` returns it, is the length of the path's
final component excluding trailing separators; `base_len (path)` itself is the length of
`path` less its trailing separators, one character being kept of a non-empty path made of
separators only. In particular `base_len (last_component ("/usr/lib/")) = 3`, the length
of "lib". -/
theorem base_len_spec (path : List Char) :
    base_len posix (last_component posix path) = (spec_final_component path).length
    ∧ base_len posix path = max (min 1 path.length) (path.rdropWhile (· == '/')).length
    ∧ base_len posix (last_component posix "/usr/lib/".toList) = 3
    ∧ spec_final_component "/usr/lib/".toList = "lib".toList := by
  refine ⟨?_, base_len_general path, by decide, by decide⟩
  obtain ⟨A, R, T, hS, ho, hcase⟩ := last_component_offset_split path
  rw [last_component_of_split path A R T hS ho]
  rcases hcase with ⟨hR, hT, hall⟩ | hR
  · subst hR; subst hT
    have : path.rdropWhile (· == '/') = [] :=
      List.rdropWhile_eq_nil_iff.mpr (fun x hx => by simpa using hall x hx)
    simp [spec_final_component, this, base_len_posix, base_len_strip]
  · rw [base_len_run R T hR hS.run hS.tail, spec_final_component_of_split path A R T hS hR]

/-- C8, counterexample to the claim as first stated: `base_len ("/usr/lib/")` is 8, not
the length 3 of the final component "lib". -/
theorem base_len_counterexample :
    base_len posix "/usr/lib/".toList = 8
    ∧ spec_final_component "/usr/lib/".toList = "lib".toList
    ∧ base_len posix "/usr/lib/".toList ≠ (spec_final_component "/usr/lib/".toList).length := by
  decide

/-- C9: in the POSIX configuration, for every `dir` and `abase`, when the allocation
succeeds `mfile_name_concat (dir, abase, _)` returns `D ++ S ++ B` with `B` the string
`abase` without its leading slashes; if `dir` contains a character other than `/`, `D` is
`dir` without its trailing slashes and `S` is "/"; otherwise `D` is `dir` and `S` is empty.
In particular the results for ("/a/b", "c"), ("/a/b/", "c") and ("/a", "/c") are "/a/b/c",
"/a/b/c" and "/a/c". -/
theorem mfile_name_concat_spec (dir abase : List Char) :
    ((∃ c ∈ dir, c ≠ '/') →
      (mfile_name_concat posix true dir abase).map Prod.fst
        = some (dir.rdropWhile (· == '/') ++ ['/'] ++ abase.dropWhile (· == '/')))
    ∧ ((∀ c ∈ dir, c = '/') →
      (mfile_name_concat posix true dir abase).map Prod.fst
        = some (dir ++ abase.dropWhile (· == '/')))
    ∧ (mfile_name_concat posix true "/a/b".toList "c".toList).map Prod.fst = some "/a/b/c".toList
    ∧ (mfile_name_concat posix true "/a/b/".toList "c".toList).map Prod.fst = some "/a/b/c".toList
    ∧ (mfile_name_concat posix true "/a".toList "/c".toList).map Prod.fst = some "/a/c".toList := by
  refine ⟨?_, ?_, by decide, by decide, by decide⟩
  · rintro ⟨c, hc, hne⟩
    obtain ⟨A, R, T, hS, ho, hcase⟩ := last_component_offset_split dir
    have hR : R ≠ [] := by
      rcases hcase with ⟨_, _, hall⟩ | h
      · exact absurd (hall c hc) hne
      · exact h
    rw [mfile_name_concat_split dir abase A R T hS ho hR]
    conv_rhs => rw [hS.eq, rdropWhile_run_tail A R T hR hS.run hS.tail]
    rfl
  · intro hall
    rw [mfile_name_concat_slashes dir abase hall]
    rfl

theorem dropWhile_slash_of_head (l : List Char) (h : l.head? ≠ some '/') :
    l.dropWhile (· == '/') = l := by
  cases l with
  | nil => rfl
  | cons c rest =>
    have hc : c ≠ '/' := by simpa using h
    rw [List.dropWhile_cons_of_neg (by simpa using hc)]

theorem base_in_result_suffix (X abase : List Char) :
    (0 : Int) ≤ ((X.length + 1 : Nat) : Int) - (if posix.IS_ABSOLUTE_FILE_NAME abase then 1 else 0)
    ∧ ((X.length + 1 : Nat) : Int) - (if posix.IS_ABSOLUTE_FILE_NAME abase then 1 else 0)
        ≤ ((X ++ ['/'] ++ abase.dropWhile (· == '/')).length : Int)
    ∧ (X ++ ['/'] ++ abase.dropWhile (· == '/')).drop
        (((X.length + 1 : Nat) : Int)
          - (if posix.IS_ABSOLUTE_FILE_NAME abase then 1 else 0)).toNat
      = (if abase.take 2 = ['/', '/'] then '/' :: abase.dropWhile (· == '/') else abase) := by
  by_cases habs : posix.IS_ABSOLUTE_FILE_NAME abase = true
  · rw [if_pos habs]
    have hh := (posix_is_absolute_iff abase).mp habs
    obtain ⟨rest, rfl⟩ : ∃ rest, abase = '/' :: rest := by
      cases abase with
      | nil => simp at hh
      | cons c rest => exact ⟨rest, by simp at hh; rw [hh]⟩
    have ho : (((X.length + 1 : Nat) : Int) - 1).toNat = X.length := by omega
    refine ⟨by omega, by simp only [List.length_append, List.length_singleton]; omega, ?_⟩
    rw [ho, List.append_assoc, List.drop_left]
    by_cases h2 : rest.head? = some '/'
    · have : ('/' :: rest).take 2 = ['/', '/'] := by
        cases rest with
        | nil => simp at h2
        | cons c r => simp at h2; simp [h2]
      rw [if_pos this]; rfl
    · have : ¬ (('/' :: rest).take 2 = ['/', '/']) := by
        cases rest with
        | nil => simp
        | cons c r => simp at h2; simp [h2]
      rw [if_neg this]
      show '/' :: (('/' :: rest).dropWhile (· == '/')) = '/' :: rest
      rw [List.dropWhile_cons_of_pos (by rfl), dropWhile_slash_of_head rest h2]
  · rw [if_neg habs]
    have hh : abase.head? ≠ some '/' := fun h => habs ((posix_is_absolute_iff abase).mpr h)
    have ho : (((X.length + 1 : Nat) : Int) - 0).toNat = (X ++ ['/']).length := by
      simp only [List.length_append, List.length_singleton]; omega
    refine ⟨by omega, by simp only [List.length_append, List.length_singleton]; omega, ?_⟩
    rw [ho, List.drop_left, dropWhile_slash_of_head abase hh]
    have : ¬ (abase.take 2 = ['/', '/']) := by
      cases abase with
      | nil => simp
      | cons c r =>
        have hc : c ≠ '/' := by simpa using hh
        cases r <;> simp [hc]
    rw [if_neg this]

/-- Where `dir` is not empty, the position reported through `base_in_result` lies inside
the result and addresses the copy of `abase`. -/
theorem mfile_name_concat_base_in_result (dir abase : List Char) (hdir : dir ≠ []) :
    ∃ r o, mfile_name_concat posix true dir abase = some (r, o) ∧ 0 ≤ o ∧ o ≤ (r.length : Int)
      ∧ r.drop o.toNat
        = (if abase.take 2 = ['/', '/'] then '/' :: abase.dropWhile (· == '/') else abase) := by
  by_cases hall : ∀ c ∈ dir, c = '/'
  · have hlast : dir.getLast hdir = '/' := hall _ (List.getLast_mem hdir)
    have hd : dir = dir.dropLast ++ ['/'] := by
      conv_lhs => rw [← List.dropLast_append_getLast hdir, hlast]
    obtain ⟨X, rfl⟩ : ∃ X, dir = X ++ ['/'] := ⟨dir.dropLast, hd⟩
    rw [mfile_name_concat_slashes _ abase hall]
    refine ⟨_, _, rfl, ?_⟩
    have := base_in_result_suffix X abase
    simpa only [List.length_append, List.length_singleton] using this
  · obtain ⟨A, R, T, hS, ho, hcase⟩ := last_component_offset_split dir
    have hR : R ≠ [] := by
      rcases hcase with ⟨_, _, h⟩ | h
      · exact absurd h hall
      · exact h
    rw [mfile_name_concat_split dir abase A R T hS ho hR]
    refine ⟨_, _, rfl, ?_⟩
    have := base_in_result_suffix (A ++ R) abase
    simpa only [List.length_append] using this

/-- C10: with an empty `dir` and the absolute `abase` "/c", `mfile_name_concat` returns "c"
and reports through `base_in_result` the position -1, one before the start of the returned
string, so the reported position is not inside the result. For every non-empty `dir` the
reported position does lie inside the result, and the result from there on is `abase`, or
`/` followed by `abase` without its leading slashes when `abase` begins with more than one
slash. -/
theorem mfile_name_concat_base_before_buffer :
    mfile_name_concat posix true [] "/c".toList = some ("c".toList, -1)
    ∧ ∀ dir abase : List Char, dir ≠ [] →
        ∃ r o, mfile_name_concat posix true dir abase = some (r, o) ∧ 0 ≤ o
          ∧ o ≤ (r.length : Int)
          ∧ r.drop o.toNat
            = (if abase.take 2 = ['/', '/'] then '/' :: abase.dropWhile (· == '/') else abase) :=
  ⟨by decide, mfile_name_concat_base_in_result⟩

/-! ## Properties of the registry -/

theorem malloc_all_ok (w : World) (h : ∀ b ∈ w.allocs, b = true) :
    malloc w = (true, { w with allocs := w.allocs.tail }) := by
  unfold malloc
  rcases hw : w.allocs with _ | ⟨b, rest⟩
  · cases w; simp_all
  · have : b = true := h b (by simp [hw])
    subst this
    simp

theorem malloc_dirs (w : World) : (malloc w).2.dirs = w.dirs := by
  unfold malloc
  split <;> rfl

theorem ensure_dirs_slot_lt (w : World) (fd : Nat) (h : fd < w.dirs.length) :
    ensure_dirs_slot w fd = (true, w) := by
  simp [ensure_dirs_slot, dirs_allocated, h]

theorem ensure_dirs_slot_grow (w w1 : World) (fd : Nat) (h : w.dirs.length ≤ fd)
    (hm : malloc w = (true, w1)) :
    ensure_dirs_slot w fd = (true, { w1 with dirs :=
      (w.dirs ++ List.replicate (max (2 * w.dirs.length + 1) (fd + 1) - w.dirs.length) none) }) := by
  have hd : w1.dirs = w.dirs := by simpa [hm] using malloc_dirs w
  have hmax : (if 2 * w.dirs.length + 1 ≤ fd then fd + 1 else 2 * w.dirs.length + 1)
      = max (2 * w.dirs.length + 1) (fd + 1) := by
    split <;> omega
  simp [ensure_dirs_slot, dirs_allocated, Nat.not_lt.mpr h, hm, hd, hmax]

theorem ensure_dirs_slot_fail (w w1 : World) (fd : Nat) (h : w.dirs.length ≤ fd)
    (hm : malloc w = (false, w1)) : ensure_dirs_slot w fd = (false, w1) := by
  simp [ensure_dirs_slot, dirs_allocated, Nat.not_lt.mpr h, hm]

theorem malloc_allocs_subset (w : World) : ∀ b ∈ (malloc w).2.allocs, b ∈ w.allocs := by
  intro b hb
  unfold malloc at hb
  split at hb
  · exact hb
  · rename_i rest hw
    rw [hw]; exact List.mem_cons_of_mem _ hb
  · rename_i rest hw
    rw [hw]; exact List.mem_cons_of_mem _ hb

theorem malloc_fst_of_all_ok (w : World) (h : ∀ b ∈ w.allocs, b = true) :
    (malloc w).1 = true := by
  rw [malloc_all_ok w h]

theorem ensure_dirs_slot_cases (w : World) (fd : Nat) :
    (fd < w.dirs.length ∧ ensure_dirs_slot w fd = (true, w))
    ∨ (w.dirs.length ≤ fd ∧ (malloc w).1 = false ∧ ensure_dirs_slot w fd = (false, (malloc w).2))
    ∨ (w.dirs.length ≤ fd ∧ (malloc w).1 = true ∧ ensure_dirs_slot w fd = (true,
        { (malloc w).2 with dirs :=
          (w.dirs ++ List.replicate (max (2 * w.dirs.length + 1) (fd + 1) - w.dirs.length) none) })) := by
  by_cases h : fd < w.dirs.length
  · exact Or.inl ⟨h, ensure_dirs_slot_lt w fd h⟩
  · have h1 : w.dirs.length ≤ fd := Nat.le_of_not_lt h
    rcases hm : malloc w with ⟨ok, w1⟩
    cases ok
    · exact Or.inr (Or.inl ⟨h1, rfl, ensure_dirs_slot_fail w w1 fd h1 hm⟩)
    · exact Or.inr (Or.inr ⟨h1, rfl, ensure_dirs_slot_grow w w1 fd h1 hm⟩)

theorem ensure_dirs_slot_length (w : World) (fd : Nat) (h : (ensure_dirs_slot w fd).1 = true) :
    fd < (ensure_dirs_slot w fd).2.dirs.length := by
  rcases ensure_dirs_slot_cases w fd with ⟨h1, h2⟩ | ⟨h1, _, h2⟩ | ⟨h1, _, h2⟩
  · rw [h2]; exact h1
  · rw [h2] at h; simp at h
  · rw [h2]; simp only [List.length_append, List.length_replicate]; omega

theorem ensure_dirs_slot_allocs_subset (w : World) (fd : Nat) :
    ∀ b ∈ (ensure_dirs_slot w fd).2.allocs, b ∈ w.allocs := by
  rcases ensure_dirs_slot_cases w fd with ⟨_, h2⟩ | ⟨_, _, h2⟩ | ⟨_, _, h2⟩ <;> rw [h2]
  · intro b hb; exact hb
  · exact malloc_allocs_subset w
  · exact malloc_allocs_subset w

theorem ensure_dirs_slot_fst_of_all_ok (w : World) (fd : Nat) (h : ∀ b ∈ w.allocs, b = true) :
    (ensure_dirs_slot w fd).1 = true := by
  rcases ensure_dirs_slot_cases w fd with ⟨_, h2⟩ | ⟨_, h1, _⟩ | ⟨_, _, h2⟩
  · rw [h2]
  · rw [malloc_fst_of_all_ok w h] at h1; cases h1
  · rw [h2]

theorem directory_name_of_slot (w : World) (fd : Int) (s : List Char) (h0 : 0 ≤ fd)
    (hlt : fd.toNat < w.dirs.length) (hs : w.dirs.getD fd.toNat none = some s) :
    _gl_directory_name w fd = (some s, w) := by
  have hlt1 : fd < (w.dirs.length : Int) := by omega
  unfold _gl_directory_name
  rw [if_pos, hs]
  rw [hs]
  simp only [dirs_allocated, Option.isSome_some, Bool.and_true, decide_eq_true_eq,
    Bool.and_eq_true]
  exact ⟨h0, hlt1⟩

theorem malloc_cwd (w : World) : (malloc w).2.cwd = w.cwd := by
  unfold malloc
  split <;> rfl

theorem ensure_dirs_slot_cwd (w : World) (fd : Nat) : (ensure_dirs_slot w fd).2.cwd = w.cwd := by
  rcases ensure_dirs_slot_cases w fd with ⟨_, h2⟩ | ⟨_, _, h2⟩ | ⟨_, _, h2⟩ <;> rw [h2]
  · exact malloc_cwd w
  · exact malloc_cwd w

theorem strdup_dirs (w : World) (s : List Char) : (strdup w s).2.dirs = w.dirs := by
  have := malloc_dirs w
  unfold strdup
  split <;> simp_all

theorem getcwd_dirs (w : World) : (getcwd w).2.dirs = w.dirs := by
  unfold getcwd
  simp only
  split
  · rfl
  · have := malloc_dirs { w with trace := Call.getcwd :: w.trace }
    split <;> simp_all

theorem get_name_dirs (cfg : Config) (w : World) (dir : List Char) :
    (get_name cfg w dir).2.dirs = w.dirs := by
  unfold get_name
  split
  · exact strdup_dirs w dir
  · have hg := getcwd_dirs w
    split
    · simp_all
    · rename_i cwd w1 hgc
      rw [hgc] at hg
      split
      · exact hg
      · have := malloc_dirs w1
        simp_all

theorem close_keeping_errno_fst (w : World) (fd : Int) : (close_keeping_errno w fd).1 = -1 := rfl

theorem dup2_self (w : World) (fd : Int) (h0 : 0 ≤ fd) :
    dup2 w fd fd = (match fd_state w fd with
      | none => (-1, { w with trace := Call.dup2 fd fd :: w.trace, errno := Errno.EBADF })
      | some _ => (fd, { w with trace := Call.dup2 fd fd :: w.trace })) := by
  have hst : fd_state { w with trace := Call.dup2 fd fd :: w.trace } fd = fd_state w fd := rfl
  unfold dup2
  simp only [hst]
  cases fd_state w fd with
  | none => rfl
  | some d => simp [Int.not_lt.mpr h0]

theorem directory_name_fst (w : World) (fd : Int) :
    (_gl_directory_name w fd).1 = if 0 ≤ fd then w.dirs.getD fd.toNat none else none := by
  unfold _gl_directory_name
  by_cases h0 : 0 ≤ fd
  · by_cases hlt : fd < (dirs_allocated w : Int)
    · cases hs : w.dirs.getD fd.toNat none with
      | none =>
        simp only [h0, hlt, hs, Option.isSome_none, decide_True, Bool.and_false,
          Bool.false_eq_true, if_false, if_true]
        split <;> rfl
      | some s => simp [h0, hlt, hs]
    · have hn : w.dirs.getD fd.toNat none = none := by
        simp only [dirs_allocated] at hlt
        rw [List.getD_eq_getElem?_getD, List.getElem?_eq_none (by omega)]
        rfl
      simp only [h0, hlt, hn, decide_True, decide_False, Bool.and_false, Bool.false_and,
        Bool.false_eq_true, if_false, if_true]
      split <;> rfl
  · simp [h0]

theorem directory_name_dirs (w : World) (fd : Int) : (_gl_directory_name w fd).2.dirs = w.dirs := by
  unfold _gl_directory_name
  split
  · rfl
  · split
    · rename_i h0
      rw [dup2_self w fd h0]
      cases fd_state w fd <;> simp
      · split <;> rfl
    · rfl

theorem getD_none_of_le (l : List (Option (List Char))) (i : Nat) (h : l.length ≤ i) :
    l.getD i none = none := by
  rw [List.getD_eq_getElem?_getD, List.getElem?_eq_none h]
  rfl

theorem directory_name_tracked (w : World) (fd : Int) (s : List Char) (h0 : 0 ≤ fd)
    (hs : w.dirs.getD fd.toNat none = some s) : _gl_directory_name w fd = (some s, w) := by
  have hlt : fd.toNat < w.dirs.length := by
    by_contra hge
    rw [getD_none_of_le w.dirs fd.toNat (Nat.le_of_not_lt hge)] at hs
    cases hs
  exact directory_name_of_slot w fd s h0 hlt hs

theorem directory_name_untracked (w : World) (fd : Int) (h0 : 0 ≤ fd)
    (hs : w.dirs.getD fd.toNat none = none) :
    _gl_directory_name w fd = (match fd_state w fd with
      | none => (none, { w with trace := Call.dup2 fd fd :: w.trace, errno := Errno.EBADF })
      | some _ => (none, { w with trace := Call.dup2 fd fd :: w.trace, errno := Errno.ENOTDIR })) := by
  unfold _gl_directory_name
  simp only [hs, Option.isSome_none, Bool.and_false, Bool.false_eq_true, if_false, if_pos h0]
  rw [dup2_self w fd h0]
  cases fd_state w fd with
  | none =>
    have : ¬ ((-1 : Int) = fd) := by omega
    simp [this]
  | some d => simp

theorem directory_name_negative (w : World) (fd : Int) (h0 : fd < 0) :
    _gl_directory_name w fd = (none, { w with errno := Errno.EBADF }) := by
  unfold _gl_directory_name
  have h1 : ¬ (0 ≤ fd) := by omega
  simp [h1]

theorem directory_name_snd_of_some (w : World) (fd : Int) (s : List Char)
    (h : (_gl_directory_name w fd).1 = some s) : (_gl_directory_name w fd).2 = w := by
  rw [directory_name_fst] at h
  by_cases h0 : 0 ≤ fd
  · rw [if_pos h0] at h
    rw [directory_name_tracked w fd s h0 h]
  · rw [if_neg h0] at h; cases h

/-- C5: for every state and every integer `fd`, `_gl_directory_name (fd)` returns a path
if and only if `0 <= fd < dirs_allocated` and slot `fd` holds a name, and then it returns
that name and changes nothing; otherwise it returns NULL with `errno = EBADF` when
`fd < 0`, `errno = ENOTDIR` when `fd >= 0` and the probe `dup2 (fd, fd)` succeeds, and the
error of the probe, `EBADF`, when the probe fails; the probe succeeds exactly when `fd` is
open. In no case is the registry changed. -/
theorem directory_name_spec (w : World) (fd : Int) :
    (∀ s, (_gl_directory_name w fd).1 = some s
      ↔ (0 ≤ fd ∧ fd < (dirs_allocated w : Int) ∧ w.dirs.getD fd.toNat none = some s))
    ∧ (∀ s, (_gl_directory_name w fd).1 = some s → (_gl_directory_name w fd).2 = w)
    ∧ ((_gl_directory_name w fd).1 = none → fd < 0 →
        (_gl_directory_name w fd).2.errno = Errno.EBADF)
    ∧ ((_gl_directory_name w fd).1 = none → 0 ≤ fd → (dup2 w fd fd).1 = fd →
        (_gl_directory_name w fd).2.errno = Errno.ENOTDIR)
    ∧ ((_gl_directory_name w fd).1 = none → 0 ≤ fd → (dup2 w fd fd).1 ≠ fd →
        (_gl_directory_name w fd).2.errno = (dup2 w fd fd).2.errno
        ∧ (dup2 w fd fd).2.errno = Errno.EBADF)
    ∧ (0 ≤ fd → ((dup2 w fd fd).1 = fd ↔ ∃ d, fd_state w fd = some d))
    ∧ (_gl_directory_name w fd).2.dirs = w.dirs := by
  refine ⟨?_, ?_, ?_, ?_, ?_, ?_, directory_name_dirs w fd⟩
  · intro s
    rw [directory_name_fst]
    constructor
    · intro h
      by_cases h0 : 0 ≤ fd
      · rw [if_pos h0] at h
        refine ⟨h0, ?_, h⟩
        by_contra hge
        rw [getD_none_of_le w.dirs fd.toNat (by simp only [dirs_allocated] at hge; omega)] at h
        cases h
      · rw [if_neg h0] at h; cases h
    · rintro ⟨h0, _, hs⟩
      rw [if_pos h0]; exact hs
  · exact directory_name_snd_of_some w fd
  · intro _ h0
    rw [directory_name_negative w fd h0]
  · intro h h0 hd
    rw [directory_name_fst, if_pos h0] at h
    rw [directory_name_untracked w fd h0 h]
    rw [dup2_self w fd h0] at hd
    cases hst : fd_state w fd with
    | none => rw [hst] at hd; simp only at hd; omega
    | some d => rfl
  · intro h h0 hd
    rw [directory_name_fst, if_pos h0] at h
    rw [directory_name_untracked w fd h0 h]
    rw [dup2_self w fd h0] at hd ⊢
    cases hst : fd_state w fd with
    | none => exact ⟨rfl, rfl⟩
    | some d => rw [hst] at hd; exact absurd rfl hd
  · intro h0
    rw [dup2_self w fd h0]
    cases hst : fd_state w fd with
    | none =>
      have : ¬ ((-1 : Int) = fd) := by omega
      simp [this]
    | some d => simp

theorem unregister_fd_slot (w : World) (fd : Int) (h0 : 0 ≤ fd) :
    (_gl_unregister_fd w fd).dirs.getD fd.toNat none = none := by
  unfold _gl_unregister_fd
  by_cases hlt : fd < (dirs_allocated w : Int)
  · have : fd.toNat < w.dirs.length := by simp only [dirs_allocated] at hlt; omega
    simp [h0, hlt, List.getD_eq_getElem?_getD, this]
  · simp only [h0, hlt, decide_True, decide_False, Bool.and_false, Bool.false_eq_true, if_false]
    exact getD_none_of_le w.dirs fd.toNat (by simp only [dirs_allocated] at hlt; omega)

theorem unregister_fd_fd_state (w : World) (fd g : Int) :
    fd_state (_gl_unregister_fd w fd) g = fd_state w g := by
  unfold _gl_unregister_fd
  split <;> rfl

/-- C4: for every state and every integer `fd`, after `_gl_unregister_fd (fd)` the lookup
`_gl_directory_name (fd)` returns NULL; it sets `errno` to `ENOTDIR` when `fd` is an open
descriptor and to `EBADF` when `fd` is negative or not open. -/
theorem unregister_then_lookup (w : World) (fd : Int) :
    (_gl_directory_name (_gl_unregister_fd w fd) fd).1 = none
    ∧ fd_state (_gl_unregister_fd w fd) fd = fd_state w fd
    ∧ ((∃ d, fd_state w fd = some d) →
        (_gl_directory_name (_gl_unregister_fd w fd) fd).2.errno = Errno.ENOTDIR)
    ∧ (fd_state w fd = none →
        (_gl_directory_name (_gl_unregister_fd w fd) fd).2.errno = Errno.EBADF)
    ∧ (fd < 0 → fd_state w fd = none) := by
  by_cases h0 : 0 ≤ fd
  · have hs := unregister_fd_slot w fd h0
    rw [directory_name_untracked _ fd h0 hs, unregister_fd_fd_state]
    refine ⟨?_, rfl, ?_, ?_, fun h => absurd h0 (by omega)⟩
    · cases fd_state w fd <;> rfl
    · rintro ⟨d, hd⟩; rw [hd]
    · intro hd; rw [hd]
  · have hneg : fd < 0 := by omega
    rw [directory_name_negative _ fd hneg]
    have hst : fd_state w fd = none := by simp [fd_state, hneg]
    refine ⟨rfl, unregister_fd_fd_state w fd fd, ?_, fun _ => rfl, fun _ => hst⟩
    rintro ⟨d, hd⟩
    rw [hst] at hd; cases hd

theorem chdir_eq (w : World) (s : List Char) :
    chdir w s = (match w.chdir_error s with
      | some e => (-1, { w with trace := Call.chdir s :: w.trace, errno := e })
      | none =>
        (0, { w with cwd := Except.ok (w.canonical w.cwd s),
                     trace := Call.chdir s :: w.trace })) := rfl

/-- C6: for every state and every integer `fd`, `fchdir (fd)` is the lookup followed by
`chdir`: when `fd` is tracked with path `s` it behaves as `chdir (s)`, called exactly once,
and returns its result, so that on success the working directory is the directory that `s`
denotes, which `getcwd` reports under its canonical name, and on failure it is unchanged;
when `fd` is not tracked it returns -1 without calling `chdir`, the working directory is
unchanged and the state, `errno` included, is the one `_gl_directory_name` leaves. The
registry is never changed. -/
theorem fchdir_spec (w : World) (fd : Int) :
    (∀ s, (_gl_directory_name w fd).1 = some s →
      fchdir w fd = chdir w s
      ∧ (fchdir w fd).2.trace = Call.chdir s :: w.trace
      ∧ ((fchdir w fd).1 = 0 → (fchdir w fd).2.cwd = Except.ok (w.canonical w.cwd s))
      ∧ ((fchdir w fd).1 ≠ 0 → (fchdir w fd).2.cwd = w.cwd))
    ∧ ((_gl_directory_name w fd).1 = none →
      (fchdir w fd).1 = -1
      ∧ (fchdir w fd).2 = (_gl_directory_name w fd).2
      ∧ (∀ p, Call.chdir p ∈ (fchdir w fd).2.trace → Call.chdir p ∈ w.trace)
      ∧ (fchdir w fd).2.cwd = w.cwd)
    ∧ (fchdir w fd).2.dirs = w.dirs := by
  refine ⟨?_, ?_, ?_⟩
  · intro s hs
    have hw := directory_name_snd_of_some w fd s hs
    have hf : fchdir w fd = chdir w s := by
      unfold fchdir
      rcases hd : _gl_directory_name w fd with ⟨name, w1⟩
      rw [hd] at hs hw
      simp only at hs hw
      subst hs; subst hw
      rfl
    rw [hf]
    rw [chdir_eq]
    refine ⟨rfl, ?_, ?_, ?_⟩ <;> cases w.chdir_error s <;> simp
  · intro hn
    have hf : fchdir w fd = (-1, (_gl_directory_name w fd).2) := by
      unfold fchdir
      rcases hd : _gl_directory_name w fd with ⟨name, w1⟩
      rw [hd] at hn
      simp only at hn
      subst hn
      rfl
    rw [hf]
    refine ⟨rfl, rfl, ?_, ?_⟩
    · intro p hp
      by_cases h0 : 0 ≤ fd
      · rw [directory_name_fst, if_pos h0] at hn
        rw [directory_name_untracked w fd h0 hn] at hp
        cases hst : fd_state w fd <;> rw [hst] at hp <;> simpa using hp
      · rw [directory_name_negative w fd (by omega)] at hp
        exact hp
    · by_cases h0 : 0 ≤ fd
      · rw [directory_name_fst, if_pos h0] at hn
        rw [directory_name_untracked w fd h0 hn]
        cases fd_state w fd <;> rfl
      · rw [directory_name_negative w fd (by omega)]
  · unfold fchdir
    have hd := directory_name_dirs w fd
    rcases hdn : _gl_directory_name w fd with ⟨name, w1⟩
    rw [hdn] at hd
    cases name with
    | none => exact hd
    | some s =>
      simp only at hd ⊢
      rw [← hd, chdir_eq]
      cases w1.chdir_error s <;> rfl

/-- C6, counterexample to the claim as first stated (on success the working directory
becomes `s`): in `sample_world`, whose working directory is `/home`, the descriptor 3
registered with `..` is tracked with the path `/home/..`; `fchdir (3)` then returns 0 and
the working directory is `/`, not the tracked path. -/
theorem fchdir_parent_counterexample :
    (_gl_register_fd posix sample_world 3 "..".toList).map
        (fun r => ((_gl_directory_name r.2 3).1, (fchdir r.2 3).1,
          (fchdir r.2 3).2.cwd.toOption))
      = some (some "/home/..".toList, 0, some "/".toList)
    ∧ "/".toList ≠ "/home/..".toList := by
  decide

theorem getD_append_replicate_none (l : List (Option (List Char))) (k i : Nat) :
    (l ++ List.replicate k none).getD i none = l.getD i none := by
  simp only [List.getD_eq_getElem?_getD]
  by_cases h : i < l.length
  · rw [List.getElem?_append_left h]
  · rw [List.getElem?_append_right (Nat.le_of_not_lt h), List.getElem?_eq_none (Nat.le_of_not_lt h)]
    by_cases h2 : i - l.length < k
    · rw [List.getElem?_replicate_of_lt h2]; rfl
    · rw [List.getElem?_eq_none (by simpa using h2)]

theorem ensure_dirs_slot_getD (w : World) (fd i : Nat) :
    (ensure_dirs_slot w fd).2.dirs.getD i none = w.dirs.getD i none := by
  rcases ensure_dirs_slot_cases w fd with ⟨_, h2⟩ | ⟨_, _, h2⟩ | ⟨_, _, h2⟩ <;> rw [h2]
  · simp only [malloc_dirs]
  · exact getD_append_replicate_none _ _ _

theorem getD_set_self (l : List (Option (List Char))) (i : Nat) (v : Option (List Char))
    (h : i < l.length) : (l.set i v).getD i none = v := by
  simp [List.getD_eq_getElem?_getD, h]

theorem getD_set_ne (l : List (Option (List Char))) (i j : Nat) (v : Option (List Char))
    (h : i ≠ j) : (l.set i v).getD j none = l.getD j none := by
  simp [List.getD_eq_getElem?_getD, List.getElem?_set_ne h]

theorem register_dup_untracked (w : World) (a b : Int) (ha : 0 ≤ a) (hb : 0 ≤ b) (hab : a ≠ b)
    (hs : w.dirs.getD a.toNat none = none) :
    _gl_register_dup w a b = some (b,
      if b < (dirs_allocated w : Int) then { w with dirs := w.dirs.set b.toNat none } else w) := by
  have hne : (a != b) = true := by simpa using hab
  unfold _gl_register_dup
  simp only [ha, hb, hne, hs, Option.isSome_none, Bool.and_false, Bool.false_eq_true, if_false,
    decide_True, Bool.and_true, Bool.not_true, Bool.and_self]
  by_cases hlt : b < (dirs_allocated w : Int)
  · simp only [hlt, if_true]
  · simp only [hlt, if_false]

theorem register_dup_tracked (w : World) (a b : Int) (s : List Char) (ha : 0 ≤ a) (hb : 0 ≤ b)
    (hab : a ≠ b) (hs : w.dirs.getD a.toNat none = some s) :
    _gl_register_dup w a b =
      (match ensure_dirs_slot w b.toNat with
      | (false, w1) => some (close_keeping_errno w1 b)
      | (true, w1) =>
        match malloc w1 with
        | (false, w2) => some (close_keeping_errno { w2 with dirs := w2.dirs.set b.toNat none } b)
        | (true, w2) => some (b, { w2 with dirs := w2.dirs.set b.toNat (some s) })) := by
  have hlt : a.toNat < w.dirs.length := by
    by_contra hge
    rw [getD_none_of_le w.dirs a.toNat (Nat.le_of_not_lt hge)] at hs
    cases hs
  have hlt1 : a < (dirs_allocated w : Int) := by simp only [dirs_allocated]; omega
  have hg := ensure_dirs_slot_getD w b.toNat a.toNat
  have hne : (a != b) = true := by simpa using hab
  unfold _gl_register_dup
  simp only [ha, hb, hne, hs, hlt1, Option.isSome_some, decide_True, Bool.and_true,
    Bool.not_true, Bool.false_eq_true, if_false, if_true, Bool.and_self]
  rcases he : ensure_dirs_slot w b.toNat with ⟨ok, w1⟩
  rw [he] at hg
  cases ok
  · rfl
  · simp only at hg ⊢
    rw [hg, hs]
    simp only [strdup]
    rcases malloc w1 with ⟨ok2, w2⟩
    cases ok2 <;> rfl

/-- C3: for every state and distinct non-negative descriptors `a` and `b`,
`_gl_register_dup (a, b)` returns `b` or -1, and `b` when no allocation fails; after a
successful call (it returns `b`), if `a` was tracked with path `s` then
`_gl_directory_name (b)` returns `s` and `_gl_directory_name (a)` still returns `s`, and if
`a` was untracked then `b` is untracked, even if it was tracked before. -/
theorem register_dup_mirrors (w : World) (a b : Int) (ha : 0 ≤ a) (hb : 0 ≤ b) (hab : a ≠ b) :
    (∃ r, _gl_register_dup w a b = some r ∧ (r.1 = b ∨ r.1 = -1))
    ∧ ((∀ x ∈ w.allocs, x = true) → ∃ w1, _gl_register_dup w a b = some (b, w1))
    ∧ (∀ w1, _gl_register_dup w a b = some (b, w1) →
        (∀ s, (_gl_directory_name w a).1 = some s →
          (_gl_directory_name w1 b).1 = some s ∧ (_gl_directory_name w1 a).1 = some s)
        ∧ ((_gl_directory_name w a).1 = none → (_gl_directory_name w1 b).1 = none)) := by
  have hne : a.toNat ≠ b.toNat := by omega
  cases hs : w.dirs.getD a.toNat none with
  | none =>
    rw [register_dup_untracked w a b ha hb hab hs]
    refine ⟨⟨_, rfl, Or.inl rfl⟩, fun _ => ⟨_, rfl⟩, ?_⟩
    intro w1 hw1
    simp only [Option.some.injEq, Prod.mk.injEq, true_and] at hw1
    subst hw1
    refine ⟨fun s h => ?_, fun _ => ?_⟩
    · rw [directory_name_fst, if_pos ha, hs] at h; cases h
    rw [directory_name_fst, if_pos hb]
    split
    · rename_i hlt
      exact getD_set_self _ _ _ (by simp only [dirs_allocated] at hlt; omega)
    · rename_i hlt
      exact getD_none_of_le _ _ (by simp only [dirs_allocated] at hlt; omega)
  | some s =>
    rw [register_dup_tracked w a b s ha hb hab hs]
    have hlen := ensure_dirs_slot_length w b.toNat
    have hg := ensure_dirs_slot_getD w b.toNat a.toNat
    have hok := ensure_dirs_slot_fst_of_all_ok w b.toNat
    have hsub := ensure_dirs_slot_allocs_subset w b.toNat
    rcases he : ensure_dirs_slot w b.toNat with ⟨ok, w1⟩
    rw [he] at hlen hg hok hsub
    cases ok
    · refine ⟨⟨_, rfl, Or.inr rfl⟩, fun hall => ?_, ?_⟩
      · have := hok hall; simp at this
      · intro w2 h2
        simp only [Option.some.injEq] at h2
        have := congrArg Prod.fst h2
        rw [close_keeping_errno_fst] at this
        simp only at this
        omega
    · simp only at hlen hg hsub ⊢
      have hd := malloc_dirs w1
      have hmok := malloc_fst_of_all_ok w1
      rcases hm : malloc w1 with ⟨ok2, w2⟩
      rw [hm] at hd hmok
      cases ok2
      · refine ⟨⟨_, rfl, Or.inr rfl⟩, fun hall => ?_, ?_⟩
        · have := hmok (fun x hx => hall x (hsub x hx)); simp at this
        · intro w3 h3
          simp only [Option.some.injEq] at h3
          have := congrArg Prod.fst h3
          rw [close_keeping_errno_fst] at this
          simp only at this
          omega
      · refine ⟨⟨_, rfl, Or.inl rfl⟩, fun _ => ⟨_, rfl⟩, ?_⟩
        intro w3 h3
        simp only [Option.some.injEq, Prod.mk.injEq, true_and] at h3
        subst h3
        simp only at hd
        refine ⟨fun t ht => ?_, fun h => ?_⟩
        · rw [directory_name_fst, if_pos ha, hs] at ht
          simp only [Option.some.injEq] at ht
          subst ht
          simp only [directory_name_fst, ha, hb, if_true, hd]
          refine ⟨getD_set_self _ _ _ (hlen trivial), ?_⟩
          rw [getD_set_ne _ _ _ _ (Ne.symm hne), hg, hs]
        · rw [directory_name_fst, if_pos ha, hs] at h; cases h

/-- C3, at a concrete input: descriptor 3 of `sample_tracked`, registered for "/home",
duplicated to descriptor 5. -/
theorem register_dup_mirrors_witness :
    (_gl_directory_name sample_tracked 3).1 = some "/home".toList
    ∧ (∃ w1, _gl_register_dup sample_tracked 3 5 = some (5, w1))
    ∧ (_gl_register_dup sample_tracked 3 5).map
        (fun r => (r.1, (_gl_directory_name r.2 5).1, (_gl_directory_name r.2 3).1))
      = some (5, some "/home".toList, some "/home".toList) :=
  ⟨by decide,
    (register_dup_mirrors sample_tracked 3 5 (by decide) (by decide) (by decide)).2.1
      (by decide),
    by decide⟩

/-! ## The last component and the directory part -/

theorem split_has_nonslash (name A R T : List Char) (hS : Split name A R T) (hR : R ≠ []) :
    ∃ c ∈ name, c ≠ '/' :=
  ⟨R.getLast hR, by rw [hS.eq]; simp [List.getLast_mem hR], hS.run _ (List.getLast_mem hR)⟩

theorem last_component_offset_of_split (name A R T : List Char) (hS : Split name A R T)
    (hR : R ≠ []) : last_component_offset posix name = A.length := by
  obtain ⟨A1, R1, T1, hS1, ho, hcase⟩ := last_component_offset_split name
  obtain ⟨c, hc, hne⟩ := split_has_nonslash name A R T hS hR
  have hR1 : R1 ≠ [] := by
    rcases hcase with ⟨_, _, hall⟩ | h
    · exact absurd (hall c hc) hne
    · exact h
  have h1 : name.rdropWhile (· == '/') = A ++ R := by
    conv_lhs => rw [hS.eq]
    exact rdropWhile_run_tail A R T hR hS.run hS.tail
  have h2 : name.rdropWhile (· == '/') = A1 ++ R1 := by
    conv_lhs => rw [hS1.eq]
    exact rdropWhile_run_tail A1 R1 T1 hR1 hS1.run hS1.tail
  have h3 : R = R1 :=
    (spec_final_component_of_split name A R T hS hR).symm.trans
      (spec_final_component_of_split name A1 R1 T1 hS1 hR1)
  subst h3
  have h4 : A = A1 := List.append_cancel_right (h1.symm.trans h2)
  rw [ho, h4]

theorem last_component_offset_all_slashes (name : List Char) (hall : ∀ c ∈ name, c = '/') :
    last_component_offset posix name = name.length := by
  obtain ⟨A, R, T, hS, ho, hcase⟩ := last_component_offset_split name
  have hR : R = [] := by
    by_contra hne
    obtain ⟨c, hc, hn⟩ := split_has_nonslash name A R T hS hne
    exact hn (hall c hc)
  have hT : T = [] := by
    rcases hcase with ⟨_, h, _⟩ | h
    · exact h
    · exact absurd hR h
  subst hR; subst hT
  have hd : name = A := by simpa using hS.eq
  rw [ho, hd]

theorem dir_len_prefix_length_posix (f : List Char) :
    dir_len_prefix_length posix f = if f.head? = some '/' then 1 else 0 := by
  unfold dir_len_prefix_length
  simp only [posix_prefix_len, posix_double_slash, posix_isslash, Bool.false_and,
    bne_self_eq_false, Bool.false_eq_true, if_false, Nat.zero_add]
  cases f with
  | nil => simp [charAt, NUL]
  | cons c rest => simp [charAt]

theorem dir_len_strip_general (f : List Char) (pl : Nat) : ∀ n, n ≤ f.length →
    dir_len_strip posix f pl n = max (min pl n) ((f.take n).rdropWhile (· == '/')).length := by
  intro n
  induction n with
  | zero => intro _; simp [dir_len_strip]
  | succ n ih =>
    intro hn
    have hlt : n < f.length := by omega
    have htake : f.take (n + 1) = f.take n ++ [charAt f n] := by
      rw [List.take_succ]
      simp [charAt, List.getD_eq_getElem?_getD, List.getElem?_eq_getElem hlt]
    have hlen : ((f.take (n + 1)).rdropWhile (· == '/')).length ≤ n + 1 := by
      have := List.rdropWhile_prefix (· == '/') (f.take (n + 1))
      have h2 := this.length_le
      rw [List.length_take] at h2
      omega
    unfold dir_len_strip
    rw [posix_isslash]
    by_cases hpl : pl < n + 1
    · rw [if_pos hpl]
      by_cases hc : (charAt f n == '/') = true
      · simp only [hc, Bool.not_true, Bool.false_eq_true, if_false]
        rw [ih (by omega), htake, List.rdropWhile_concat_pos (· == '/') _ _ hc]
        congr 1
        omega
      · simp only [hc, Bool.not_false, if_true]
        rw [htake, List.rdropWhile_concat_neg (· == '/') _ _ hc]
        simp only [List.length_append, List.length_take, List.length_singleton]
        omega
    · rw [if_neg hpl]
      omega

theorem rdropWhile_length (p : Char → Bool) (l : List Char) :
    (l.rdropWhile p).length = l.length - (l.reverse.takeWhile p).length := by
  have h := congrArg List.length (List.takeWhile_append_dropWhile p l.reverse)
  simp only [List.length_append, List.length_reverse] at h
  unfold List.rdropWhile
  rw [List.length_reverse]
  omega

theorem last_component_offset_pos_of_head (f : List Char) (h : f.head? = some '/') :
    1 ≤ last_component_offset posix f := by
  obtain ⟨A, R, T, hS, ho, hcase⟩ := last_component_offset_split f
  rw [ho]
  cases A with
  | cons a rest => simp
  | nil =>
    exfalso
    rcases hcase with ⟨hR, hT, _⟩ | hR
    · rw [hS.eq, hR, hT] at h; simp at h
    · cases R with
      | nil => exact hR rfl
      | cons c rest =>
        rw [hS.eq] at h
        simp only [List.nil_append, List.cons_append, List.head?_cons, Option.some.injEq] at h
        exact hS.run c (by simp) h

theorem dir_len_formula (f : List Char) :
    dir_len posix f = max (if f.head? = some '/' then 1 else 0)
      (((f.take (last_component_offset posix f)).rdropWhile (· == '/')).length) := by
  unfold dir_len
  rw [dir_len_strip_general f _ _ (last_component_offset_le f), dir_len_prefix_length_posix]
  congr 1
  by_cases h : f.head? = some '/'
  · have := last_component_offset_pos_of_head f h
    rw [if_pos h]; omega
  · rw [if_neg h]; omega

theorem take_offset_of_split (name A R T : List Char) (hS : Split name A R T)
    (ho : last_component_offset posix name = A.length) :
    name.take (last_component_offset posix name) = A := by
  rw [ho, hS.eq, List.append_assoc, List.take_left]

theorem spec_final_component_all_slashes (name : List Char) (hall : ∀ c ∈ name, c = '/') :
    spec_final_component name = [] := by
  have : name.rdropWhile (· == '/') = [] :=
    List.rdropWhile_eq_nil_iff.mpr (fun x hx => by simpa using hall x hx)
  simp [spec_final_component, this]

/-- C15: in the POSIX configuration, for every string `name`, `last_component (name)` is the
suffix of `name` that starts at the first character of the last maximal run of characters
other than `/`: `name` is `A ++ R ++ T` with `R` that run (free of `/`, and equal to the final
component of the specification), `T` the slashes after it, `A` empty or ending in `/`, and
`last_component (name)` is `R ++ T`, at offset `A.length`. So it does not begin with `/` and
no `/` in it is followed by another character than `/`. When `name` has no character other
than `/`, it is the empty suffix at the end of `name`. -/
theorem last_component_spec (name : List Char) :
    (∃ A R T, name = A ++ R ++ T ∧ last_component_offset posix name = A.length
      ∧ last_component posix name = R ++ T
      ∧ (∀ c ∈ R, c ≠ '/') ∧ (∀ c ∈ T, c = '/') ∧ (A = [] ∨ A.getLast? = some '/')
      ∧ ((∃ c ∈ name, c ≠ '/') → R ≠ []) ∧ R = spec_final_component name)
    ∧ (last_component posix name).head? ≠ some '/'
    ∧ (∀ i, charAt (last_component posix name) i = '/' →
        i + 1 < (last_component posix name).length →
        charAt (last_component posix name) (i + 1) = '/')
    ∧ ((∀ c ∈ name, c = '/') →
        last_component_offset posix name = name.length ∧ last_component posix name = []) := by
  obtain ⟨A, R, T, hS, ho, hcase⟩ := last_component_offset_split name
  have hlc := last_component_of_split name A R T hS ho
  have hRT : R = [] → T = [] := by
    intro hR
    rcases hcase with ⟨_, h, _⟩ | h
    · exact h
    · exact absurd hR h
  refine ⟨⟨A, R, T, hS.eq, ho, hlc, hS.run, hS.tail, hS.front, ?_, ?_⟩, ?_, ?_, ?_⟩
  · rintro ⟨c, hc, hne⟩
    rcases hcase with ⟨_, _, hall⟩ | h
    · exact absurd (hall c hc) hne
    · exact h
  · rcases hcase with ⟨hR, _, hall⟩ | h
    · rw [hR, spec_final_component_all_slashes name hall]
    · exact (spec_final_component_of_split name A R T hS h).symm
  · rw [hlc]
    cases R with
    | nil => rw [hRT rfl]; simp
    | cons c rest =>
      simp only [List.cons_append, List.head?_cons, ne_eq, Option.some.injEq]
      exact hS.run c (by simp)
  · intro i hi hlt
    rw [hlc] at hi hlt ⊢
    by_cases hiR : i < R.length
    · rw [charAt_append_left _ _ _ hiR] at hi
      exact absurd hi (hS.run _ (charAt_mem R i hiR))
    · rw [charAt_append_right _ _ _ (by omega)]
      simp only [List.length_append] at hlt
      exact hS.tail _ (charAt_mem T _ (by omega))
  · intro hall
    have h1 := last_component_offset_all_slashes name hall
    refine ⟨h1, ?_⟩
    unfold last_component
    rw [h1, List.drop_length]

/-- C16: in the POSIX configuration, for every string `f`, with `o` the offset at which
`last_component (f)` starts, `dir_len (f)` is `o` less the number of `/` immediately before
offset `o`, except that a leading `/` is never stripped (the result is at least 1 when `f`
begins with `/`). So `dir_len (f) <= o <= strlen (f)`; the first `dir_len (f)` characters of
`f` are empty, exactly "/", or end in a character other than `/`; and `dir_len (f) = 0` if and
only if `o = 0`, which is when `f` is a run of characters other than `/` followed by slashes
(the empty string included). -/
theorem dir_len_spec (f : List Char) :
    dir_len posix f = max (if f.head? = some '/' then 1 else 0)
      (last_component_offset posix f
        - ((f.take (last_component_offset posix f)).reverse.takeWhile (· == '/')).length)
    ∧ dir_len posix f ≤ last_component_offset posix f
    ∧ last_component_offset posix f ≤ f.length
    ∧ (f.take (dir_len posix f) = [] ∨ f.take (dir_len posix f) = ['/']
        ∨ ∃ c, (f.take (dir_len posix f)).getLast? = some c ∧ c ≠ '/')
    ∧ (dir_len posix f = 0 ↔ last_component_offset posix f = 0)
    ∧ (last_component_offset posix f = 0 ↔
        ∃ R T, f = R ++ T ∧ (∀ c ∈ R, c ≠ '/') ∧ (∀ c ∈ T, c = '/') ∧ (R = [] → T = []))
    ∧ (f.head? = some '/' → 1 ≤ dir_len posix f) := by
  have hole := last_component_offset_le f
  have hform := dir_len_formula f
  have hlen := rdropWhile_length (· == '/') (f.take (last_component_offset posix f))
  rw [List.length_take, Nat.min_eq_left hole] at hlen
  have hdl : dir_len posix f ≤ last_component_offset posix f :=
    dir_len_strip_le posix f _ _
  obtain ⟨A, R, T, hS, ho, hcase⟩ := last_component_offset_split f
  have htk := take_offset_of_split f A R T hS ho
  have hRT : R = [] → T = [] := by
    intro hR
    rcases hcase with ⟨_, h, _⟩ | h
    · exact h
    · exact absurd hR h
  have hzero : dir_len posix f = 0 ↔ last_component_offset posix f = 0 := by
    constructor
    · intro h0
      by_contra hne
      have hA : A ≠ [] := by
        intro hA; rw [ho, hA] at hne; exact hne rfl
      rw [hform, htk] at h0
      by_cases hall : ∀ c ∈ A, c = '/'
      · have hh : f.head? = some '/' := by
          cases A with
          | nil => exact absurd rfl hA
          | cons a rest =>
            rw [hS.eq]
            simp only [List.cons_append, List.head?_cons, Option.some.injEq]
            exact hall a (by simp)
        rw [if_pos hh] at h0
        omega
      · have hne2 : A.rdropWhile (· == '/') ≠ [] := by
          intro h
          exact hall (fun c hc => by simpa using List.rdropWhile_eq_nil_iff.mp h c hc)
        have := List.length_pos.mpr hne2
        omega
    · intro h0; omega
  refine ⟨by rw [hform, hlen], hdl, hole, ?_, hzero, ?_, ?_⟩
  · by_cases hge : (if f.head? = some '/' then 1 else 0)
        ≤ ((f.take (last_component_offset posix f)).rdropWhile (· == '/')).length
    · have hd : dir_len posix f = (A.rdropWhile (· == '/')).length := by
        rw [hform, Nat.max_eq_right hge, htk]
      have hpre : A.rdropWhile (· == '/') <+: f := by
        refine (List.rdropWhile_prefix (· == '/') A).trans ?_
        rw [hS.eq, List.append_assoc]
        exact List.prefix_append _ _
      have htake : f.take (dir_len posix f) = A.rdropWhile (· == '/') := by
        rw [hd]
        exact (List.prefix_iff_eq_take.mp hpre).symm
      rw [htake]
      by_cases hnil : A.rdropWhile (· == '/') = []
      · exact Or.inl hnil
      · refine Or.inr (Or.inr ⟨_, List.getLast?_eq_getLast _ hnil, ?_⟩)
        simpa using List.rdropWhile_last_not (· == '/') A hnil
    · have hh : f.head? = some '/' := by
        by_contra h
        rw [if_neg h] at hge
        omega
      rw [if_pos hh] at hge
      have hd : dir_len posix f = 1 := by
        rw [hform, if_pos hh]; omega
      rw [hd]
      cases f with
      | nil => simp at hh
      | cons c rest =>
        simp only [List.head?_cons, Option.some.injEq] at hh
        exact Or.inr (Or.inl (by simp [hh]))
  · rw [ho]
    constructor
    · intro h0
      have hA : A = [] := List.length_eq_zero.mp h0
      exact ⟨R, T, by simpa [hA] using hS.eq, hS.run, hS.tail, hRT⟩
    · rintro ⟨R1, T1, hf, hrun, htail, hRT1⟩
      by_cases hR1 : R1 = []
      · have hT1 := hRT1 hR1
        have hnil : f = [] := by rw [hf, hR1, hT1]; rfl
        have := last_component_offset_le f
        rw [ho, hnil] at this
        simpa using this
      · have := last_component_offset_of_split f [] R1 T1
          ⟨by simpa using hf, hrun, htail, Or.inl rfl⟩ hR1
        rw [ho] at this
        simpa using this
  · intro hh
    rw [hform, if_pos hh]
    omega

/-- C18: in the POSIX configuration, for every string `name`, with `c` the string
`last_component (name)`, `base_len (c)` is `strlen (c)` less the number of trailing `/` of
`c`, the first `base_len (c)` characters of `c` contain no `/`, and `base_len (c) = 0` if and
only if `c` is empty. -/
theorem base_len_last_component_spec (name : List Char) :
    base_len posix (last_component posix name)
      = (last_component posix name).length
        - ((last_component posix name).reverse.takeWhile (· == '/')).length
    ∧ (∀ x ∈ (last_component posix name).take (base_len posix (last_component posix name)),
        x ≠ '/')
    ∧ (base_len posix (last_component posix name) = 0 ↔ last_component posix name = []) := by
  obtain ⟨A, R, T, hS, ho, hcase⟩ := last_component_offset_split name
  rw [last_component_of_split name A R T hS ho]
  rcases hcase with ⟨hR, hT, _⟩ | hR
  · subst hR; subst hT
    simp [base_len_posix, base_len_strip]
  · have hb := base_len_run R T hR hS.run hS.tail
    have hrd : (R ++ T).rdropWhile (· == '/') = R := by
      simpa using rdropWhile_run_tail [] R T hR hS.run hS.tail
    have hl := rdropWhile_length (· == '/') (R ++ T)
    rw [hrd] at hl
    refine ⟨by rw [hb, hl], ?_, ?_⟩
    · rw [hb, List.take_left]
      exact hS.run
    · rw [hb]
      constructor
      · intro h0
        exact absurd (List.length_eq_zero.mp h0) hR
      · intro h
        exact absurd (List.append_eq_nil.mp h).1 hR

theorem head_append_of_ne_nil (f g : List Char) (hf : f ≠ []) : (f ++ g).head? = f.head? := by
  cases f with
  | nil => exact absurd rfl hf
  | cons c rest => rfl

theorem dir_len_append_slash (f : List Char) (hf : f ≠ []) :
    dir_len posix (f ++ ['/']) = dir_len posix f := by
  rw [dir_len_formula, dir_len_formula, head_append_of_ne_nil f ['/'] hf]
  congr 1
  by_cases hall : ∀ c ∈ f, c = '/'
  · have hall2 : ∀ c ∈ f ++ ['/'], c = '/' := by
      intro c hc
      rcases List.mem_append.mp hc with h | h
      · exact hall c h
      · exact List.mem_singleton.mp h
    rw [last_component_offset_all_slashes f hall,
      last_component_offset_all_slashes _ hall2, List.take_length, List.take_length]
    rw [List.rdropWhile_eq_nil_iff.mpr (fun x hx => by simpa using hall2 x hx),
      List.rdropWhile_eq_nil_iff.mpr (fun x hx => by simpa using hall x hx)]
  · obtain ⟨A, R, T, hS, ho, hcase⟩ := last_component_offset_split f
    have hR : R ≠ [] := by
      rcases hcase with ⟨_, _, h⟩ | h
      · exact absurd h hall
      · exact h
    have hS2 : Split (f ++ ['/']) A R (T ++ ['/']) :=
      ⟨by rw [hS.eq]; simp, hS.run, by
        intro c hc
        rcases List.mem_append.mp hc with h | h
        · exact hS.tail c h
        · exact List.mem_singleton.mp h, hS.front⟩
    have ho2 := last_component_offset_of_split _ A R _ hS2 hR
    rw [take_offset_of_split f A R T hS ho, take_offset_of_split _ A R _ hS2 ho2]

/-- C17: in the POSIX configuration, for every non-empty string `f`,
`dir_len (f ++ "/") = dir_len (f)` and `mdir_name (f ++ "/") = mdir_name (f)`, whether the
allocation succeeds or not. -/
theorem trailing_slash_ignored (f : List Char) (hf : f ≠ []) :
    dir_len posix (f ++ ['/']) = dir_len posix f
    ∧ ∀ malloc_ok, mdir_name posix malloc_ok (f ++ ['/']) = mdir_name posix malloc_ok f := by
  have h := dir_len_append_slash f hf
  refine ⟨h, fun ok => ?_⟩
  have hle := dir_len_le f
  unfold mdir_name
  simp only [h, posix_drive_relative, Bool.false_and, Bool.or_false]
  rw [List.take_append_of_le_length hle]

/-- C17, at a concrete input: "/usr/lib" and "/usr/lib/". -/
theorem trailing_slash_ignored_witness :
    dir_len posix ("/usr/lib".toList ++ ['/']) = dir_len posix "/usr/lib".toList
    ∧ ∀ malloc_ok, mdir_name posix malloc_ok ("/usr/lib".toList ++ ['/'])
        = mdir_name posix malloc_ok "/usr/lib".toList :=
  trailing_slash_ignored "/usr/lib".toList (by decide)

theorem concat_clean (d b : List Char)
    (hd : d = ['/'] ∨ (d ≠ [] ∧ d.getLast? ≠ some '/')) (hbs : ∀ c ∈ b, c ≠ '/') :
    ∃ A, (mfile_name_concat posix true d b).map Prod.fst = some (A ++ b)
      ∧ (A = [] ∨ A.getLast? = some '/') ∧ A.rdropWhile (· == '/') = d.rdropWhile (· == '/')
      ∧ A.head? = d.head? ∧ A ≠ [] ∧ (d = ['/'] ∨ d.rdropWhile (· == '/') = d) := by
  have hb : b.dropWhile (· == '/') = b := by
    cases b with
    | nil => rfl
    | cons c rest =>
      exact dropWhile_slash_of_head _ (by
        simp only [List.head?_cons, ne_eq, Option.some.injEq]
        exact hbs c (by simp))
  rcases hd with hd | ⟨hne, hlast⟩
  · subst hd
    refine ⟨['/'], ?_, Or.inr rfl, rfl, rfl, by simp, Or.inl rfl⟩
    rw [mfile_name_concat_slashes ['/'] b (by simp), hb]
    rfl
  · have hl : d.getLast hne ≠ '/' := by
      intro h
      exact hlast (by rw [List.getLast?_eq_getLast _ hne, h])
    have hrd : d.rdropWhile (· == '/') = d :=
      List.rdropWhile_eq_self_iff.mpr (fun h => by simpa using hl)
    obtain ⟨A, R, T, hS, ho, hcase⟩ := last_component_offset_split d
    have hR : R ≠ [] := by
      rcases hcase with ⟨_, _, hall⟩ | h
      · exact absurd (hall _ (List.getLast_mem hne)) hl
      · exact h
    have hAR : A ++ R = d := by
      rw [← rdropWhile_run_tail A R T hR hS.run hS.tail, ← hS.eq, hrd]
    refine ⟨d ++ ['/'], ?_, Or.inr (by simp), ?_, head_append_of_ne_nil d ['/'] hne, by simp,
      Or.inr hrd⟩
    · rw [mfile_name_concat_split d b A R T hS ho hR, hb, hAR]
      rfl
    · rw [List.rdropWhile_concat_pos (· == '/') d '/' (by rfl)]

/-- C20: in the POSIX configuration, for every `d` that is exactly "/" or is non-empty and
does not end in `/`, and every non-empty `b` without `/`, the string `r` that
`mfile_name_concat (d, b, _)` returns satisfies `mdir_name (r) = d`,
`last_component (r) = b` and `base_len (last_component (r)) = strlen (b)`. -/
theorem concat_then_split (d b : List Char)
    (hd : d = ['/'] ∨ (d ≠ [] ∧ d.getLast? ≠ some '/')) (hb : b ≠ [])
    (hbs : ∀ c ∈ b, c ≠ '/') :
    ∃ r, (mfile_name_concat posix true d b).map Prod.fst = some r
      ∧ mdir_name posix true r = some d
      ∧ last_component posix r = b
      ∧ base_len posix (last_component posix r) = b.length := by
  obtain ⟨A, hr, hfront, hrd, hhead, hA, hdd⟩ := concat_clean d b hd hbs
  have hS : Split (A ++ b) A b [] := ⟨by simp, hbs, by simp, hfront⟩
  have ho := last_component_offset_of_split (A ++ b) A b [] hS hb
  have hlc : last_component posix (A ++ b) = b := by
    simpa using last_component_of_split (A ++ b) A b [] hS ho
  have hbl : base_len posix b = b.length := by
    simpa using base_len_run b [] hb hbs (by simp)
  have hform := dir_len_formula (A ++ b)
  rw [take_offset_of_split (A ++ b) A b [] hS ho, head_append_of_ne_nil A b hA, hhead, hrd] at hform
  have hdl : dir_len posix (A ++ b) = d.length ∧ (A ++ b).take d.length = d := by
    rcases hdd with h | h
    · subst h
      have hA1 : A.rdropWhile (· == '/') = [] := by rw [hrd]; rfl
      have hAll := List.rdropWhile_eq_nil_iff.mp hA1
      refine ⟨by rw [hform]; rfl, ?_⟩
      cases A with
      | nil => exact absurd rfl hA
      | cons a rest =>
        have : a = '/' := by simpa using hAll a (by simp)
        subst this
        rfl
    · rw [h] at hform hrd
      have hdne : d ≠ [] := by
        rcases hd with h1 | ⟨h1, _⟩
        · rw [h1]; simp
        · exact h1
      have hpos := List.length_pos.mpr hdne
      refine ⟨by rw [hform]; split <;> omega, ?_⟩
      have hpre : d <+: A ++ b := by
        rw [← hrd]
        exact (List.rdropWhile_prefix (· == '/') A).trans (List.prefix_append _ _)
      exact (List.prefix_iff_eq_take.mp hpre).symm
  refine ⟨A ++ b, hr, ?_, hlc, by rw [hlc, hbl]⟩
  rw [mdir_name_posix, hdl.1, hdl.2]
  have hdne : d.length ≠ 0 := by
    rcases hd with h1 | ⟨h1, _⟩
    · rw [h1]; simp
    · exact fun h => h1 (List.length_eq_zero.mp h)
  rw [if_neg hdne, List.append_nil]

/-- C20, at a concrete input: "/usr" joined with "lib". -/
theorem concat_then_split_witness :
    ∃ r, (mfile_name_concat posix true "/usr".toList "lib".toList).map Prod.fst = some r
      ∧ mdir_name posix true r = some "/usr".toList
      ∧ last_component posix r = "lib".toList
      ∧ base_len posix (last_component posix r) = "lib".toList.length :=
  concat_then_split "/usr".toList "lib".toList (by decide) (by decide) (by decide)

/-! ## The hooks: outcomes, frame and growth -/

theorem malloc_trace (w : World) : (malloc w).2.trace = w.trace := by
  unfold malloc
  split <;> rfl

theorem malloc_open_fds (w : World) : (malloc w).2.open_fds = w.open_fds := by
  unfold malloc
  split <;> rfl

theorem malloc_errno_of_fail (w : World) (h : (malloc w).1 = false) :
    (malloc w).2.errno = Errno.ENOMEM := by
  unfold malloc at h ⊢
  split <;> simp_all

theorem ensure_dirs_slot_trace (w : World) (fd : Nat) :
    (ensure_dirs_slot w fd).2.trace = w.trace := by
  rcases ensure_dirs_slot_cases w fd with ⟨_, h2⟩ | ⟨_, _, h2⟩ | ⟨_, _, h2⟩ <;> rw [h2]
  · exact malloc_trace w
  · exact malloc_trace w

theorem ensure_dirs_slot_open_fds (w : World) (fd : Nat) :
    (ensure_dirs_slot w fd).2.open_fds = w.open_fds := by
  rcases ensure_dirs_slot_cases w fd with ⟨_, h2⟩ | ⟨_, _, h2⟩ | ⟨_, _, h2⟩ <;> rw [h2]
  · exact malloc_open_fds w
  · exact malloc_open_fds w

theorem ensure_dirs_slot_length_le (w : World) (fd : Nat) :
    w.dirs.length ≤ (ensure_dirs_slot w fd).2.dirs.length := by
  rcases ensure_dirs_slot_cases w fd with ⟨_, h2⟩ | ⟨_, _, h2⟩ | ⟨_, _, h2⟩ <;> rw [h2]
  · rw [malloc_dirs]
  · simp only [List.length_append]; omega

theorem ensure_dirs_slot_fail_state (w : World) (fd : Nat)
    (h : (ensure_dirs_slot w fd).1 = false) :
    w.dirs.length ≤ fd ∧ (ensure_dirs_slot w fd).2.dirs = w.dirs
      ∧ (ensure_dirs_slot w fd).2.errno = Errno.ENOMEM := by
  rcases ensure_dirs_slot_cases w fd with ⟨_, h2⟩ | ⟨h0, h1, h2⟩ | ⟨_, _, h2⟩
  · rw [h2] at h; cases h
  · rw [h2]; exact ⟨h0, malloc_dirs w, malloc_errno_of_fail w h1⟩
  · rw [h2] at h; cases h

theorem get_name_trace (cfg : Config) (w : World) (dir : List Char) :
    (get_name cfg w dir).2.trace = w.trace
      ∨ (get_name cfg w dir).2.trace = Call.getcwd :: w.trace := by
  unfold get_name
  split
  · left; unfold strdup; have := malloc_trace w; split <;> simp_all
  · right
    have hg : (getcwd w).2.trace = Call.getcwd :: w.trace := by
      unfold getcwd
      simp only
      split
      · rfl
      · have := malloc_trace { w with trace := Call.getcwd :: w.trace }
        split <;> simp_all
    split
    · simp_all
    · rename_i cwd w1 hgc
      rw [hgc] at hg
      split
      · exact hg
      · have := malloc_trace w1
        simp_all

theorem get_name_open_fds (cfg : Config) (w : World) (dir : List Char) :
    (get_name cfg w dir).2.open_fds = w.open_fds := by
  unfold get_name
  split
  · unfold strdup; have := malloc_open_fds w; split <;> simp_all
  · have hg : (getcwd w).2.open_fds = w.open_fds := by
      unfold getcwd
      simp only
      split
      · rfl
      · have := malloc_open_fds { w with trace := Call.getcwd :: w.trace }
        split <;> simp_all
    split
    · simp_all
    · rename_i cwd w1 hgc
      rw [hgc] at hg
      split
      · exact hg
      · have := malloc_open_fds w1
        simp_all

theorem malloc_close_error (w : World) : (malloc w).2.close_error = w.close_error := by
  unfold malloc
  split <;> rfl

theorem ensure_dirs_slot_close_error (w : World) (fd : Nat) :
    (ensure_dirs_slot w fd).2.close_error = w.close_error := by
  rcases ensure_dirs_slot_cases w fd with ⟨_, h2⟩ | ⟨_, _, h2⟩ | ⟨_, _, h2⟩ <;> rw [h2]
  · exact malloc_close_error w
  · exact malloc_close_error w

theorem get_name_close_error (cfg : Config) (w : World) (dir : List Char) :
    (get_name cfg w dir).2.close_error = w.close_error := by
  unfold get_name
  split
  · unfold strdup; have := malloc_close_error w; split <;> simp_all
  · have hg : (getcwd w).2.close_error = w.close_error := by
      unfold getcwd
      simp only
      split
      · rfl
      · have := malloc_close_error { w with trace := Call.getcwd :: w.trace }
        split <;> simp_all
    split
    · simp_all
    · rename_i cwd w1 hgc
      rw [hgc] at hg
      split
      · exact hg
      · have := malloc_close_error w1
        simp_all

theorem fstat_is_dir_eq (w : World) (fd : Int) :
    (fstat_is_dir w fd).1 = (fd_state w fd == some true)
    ∧ (fstat_is_dir w fd).2.dirs = w.dirs
    ∧ (fstat_is_dir w fd).2.open_fds = w.open_fds
    ∧ (fstat_is_dir w fd).2.trace = Call.fstat fd :: w.trace
    ∧ (fstat_is_dir w fd).2.cwd = w.cwd := by
  have hst : fd_state { w with trace := Call.fstat fd :: w.trace } fd = fd_state w fd := rfl
  unfold fstat_is_dir
  simp only [hst]
  cases h : fd_state w fd with
  | none => simp
  | some d => cases d <;> simp

theorem close_eq (w : World) (fd : Int) :
    close w fd = (match fd_state w fd with
      | none => (-1, { w with trace := Call.close fd :: w.trace, errno := Errno.EBADF })
      | some _ =>
        match w.close_error fd.toNat with
        | none =>
          (0, { w with open_fds := Function.update w.open_fds fd.toNat none,
                       trace := Call.close fd :: w.trace })
        | some e =>
          (-1, { w with errno := e,
                        open_fds := Function.update w.open_fds fd.toNat none,
                        trace := Call.close fd :: w.trace })) := rfl

theorem close_errno_of_error (w : World) (fd : Int) (d : Bool) (e : Errno)
    (hopen : fd_state w fd = some d) (he : w.close_error fd.toNat = some e) :
    (close w fd).2.errno = e := by
  rw [close_eq, hopen]
  simp only [he]

theorem close_dirs_cwd (w : World) (fd : Int) :
    (close w fd).2.dirs = w.dirs ∧ (close w fd).2.cwd = w.cwd := by
  rw [close_eq]
  cases fd_state w fd with
  | none => exact ⟨rfl, rfl⟩
  | some d => cases w.close_error fd.toNat <;> exact ⟨rfl, rfl⟩

theorem close_keeping_errno_state (w : World) (fd : Int) :
    (close_keeping_errno w fd).2.dirs = w.dirs
    ∧ (close_keeping_errno w fd).2.errno = w.errno
    ∧ (close_keeping_errno w fd).2.trace = Call.close fd :: w.trace
    ∧ (close_keeping_errno w fd).2.cwd = w.cwd
    ∧ fd_state (close_keeping_errno w fd).2 fd = none
    ∧ (∀ g : Int, g ≠ fd → fd_state (close_keeping_errno w fd).2 g = fd_state w g) := by
  unfold close_keeping_errno
  rw [close_eq]
  cases h : fd_state w fd with
  | none =>
    exact ⟨rfl, rfl, rfl, rfl, h, fun g _ => rfl⟩
  | some d =>
    have hfd0 : ¬ fd < 0 := by
      intro hneg
      simp [fd_state, hneg] at h
    cases w.close_error fd.toNat with
    | none =>
      refine ⟨rfl, rfl, rfl, rfl, ?_, ?_⟩
      · simp [fd_state, hfd0]
      · intro g hg
        unfold fd_state
        by_cases hg0 : g < 0
        · simp [hg0]
        · have : g.toNat ≠ fd.toNat := by omega
          simp [hg0, Function.update, this]
    | some e =>
      refine ⟨rfl, rfl, rfl, rfl, ?_, ?_⟩
      · simp [fd_state, hfd0]
      · intro g hg
        unfold fd_state
        by_cases hg0 : g < 0
        · simp [hg0]
        · have : g.toNat ≠ fd.toNat := by omega
          simp [hg0, Function.update, this]

/-- The four ways `_gl_register_fd` ends. -/
theorem register_fd_cases (cfg : Config) (w : World) (fd : Int) (filename : List Char)
    (hfd : 0 ≤ fd) (w0 : World) (d : Bool)
    (hd : (if cfg.REPLACE_OPEN_DIRECTORY then (true, w) else fstat_is_dir w fd) = (d, w0)) :
    (d = false ∧ _gl_register_fd cfg w fd filename = some (fd, w0))
    ∨ (d = true ∧ (ensure_dirs_slot w0 fd.toNat).1 = false
        ∧ _gl_register_fd cfg w fd filename
          = some (close_keeping_errno (ensure_dirs_slot w0 fd.toNat).2 fd))
    ∨ (d = true ∧ (ensure_dirs_slot w0 fd.toNat).1 = true
        ∧ (get_name cfg (ensure_dirs_slot w0 fd.toNat).2 filename).1 = none
        ∧ _gl_register_fd cfg w fd filename
          = some (close_keeping_errno
              { (get_name cfg (ensure_dirs_slot w0 fd.toNat).2 filename).2 with
                dirs := (get_name cfg (ensure_dirs_slot w0 fd.toNat).2 filename).2.dirs.set
                  fd.toNat none } fd))
    ∨ (d = true ∧ (ensure_dirs_slot w0 fd.toNat).1 = true
        ∧ ∃ name, (get_name cfg (ensure_dirs_slot w0 fd.toNat).2 filename).1 = some name
          ∧ _gl_register_fd cfg w fd filename
            = some (fd, { (get_name cfg (ensure_dirs_slot w0 fd.toNat).2 filename).2 with
                dirs := (get_name cfg (ensure_dirs_slot w0 fd.toNat).2 filename).2.dirs.set
                  fd.toNat (some name) })) := by
  unfold _gl_register_fd
  simp only [hfd, decide_True, Bool.not_true, Bool.false_eq_true, if_false, hd]
  cases d with
  | false => exact Or.inl ⟨rfl, rfl⟩
  | true =>
    right
    rcases he : ensure_dirs_slot w0 fd.toNat with ⟨ok, w2⟩
    cases ok with
    | false => exact Or.inl ⟨rfl, rfl, by simp only [he]⟩
    | true =>
      right
      rcases hg : get_name cfg w2 filename with ⟨res, w3⟩
      cases res with
      | none => exact Or.inl ⟨rfl, rfl, rfl, by simp only [he, hg]⟩
      | some name => exact Or.inr ⟨rfl, rfl, name, rfl, by simp only [he, hg]⟩

theorem fstat_or_replace (cfg : Config) (w : World) (fd : Int) :
    ((if cfg.REPLACE_OPEN_DIRECTORY then (true, w) else fstat_is_dir w fd) : Bool × World).2.dirs
        = w.dirs
    ∧ ((if cfg.REPLACE_OPEN_DIRECTORY then (true, w) else fstat_is_dir w fd)
        : Bool × World).2.open_fds = w.open_fds
    ∧ ((if cfg.REPLACE_OPEN_DIRECTORY then (true, w) else fstat_is_dir w fd)
        : Bool × World).2.cwd = w.cwd := by
  have h := fstat_is_dir_eq w fd
  split
  · exact ⟨rfl, rfl, rfl⟩
  · exact ⟨h.2.1, h.2.2.1, h.2.2.2.2⟩

theorem get_name_cwd (cfg : Config) (w : World) (dir : List Char) :
    (get_name cfg w dir).2.cwd = w.cwd := by
  unfold get_name
  split
  · unfold strdup; have := malloc_cwd w; split <;> simp_all
  · have hg : (getcwd w).2.cwd = w.cwd := by
      unfold getcwd
      simp only
      split
      · rfl
      · have := malloc_cwd { w with trace := Call.getcwd :: w.trace }
        split <;> simp_all
    split
    · simp_all
    · rename_i cwd w1 hgc
      rw [hgc] at hg
      split
      · exact hg
      · have := malloc_cwd w1
        simp_all

/-- What every call of `_gl_register_fd` leaves alone: the slots other than `fd`, the
descriptors other than `fd`, the working directory; and the table does not shrink. -/
theorem register_fd_frame (cfg : Config) (w : World) (fd : Int) (filename : List Char)
    (r : Int × World) (hfd : 0 ≤ fd) (hr : _gl_register_fd cfg w fd filename = some r) :
    (∀ i, i ≠ fd.toNat → r.2.dirs.getD i none = w.dirs.getD i none)
    ∧ w.dirs.length ≤ r.2.dirs.length
    ∧ (∀ g : Int, g ≠ fd → fd_state r.2 g = fd_state w g)
    ∧ r.2.cwd = w.cwd := by
  rcases hd : (if cfg.REPLACE_OPEN_DIRECTORY then (true, w) else fstat_is_dir w fd)
    with ⟨d, w0⟩
  have h0 := fstat_or_replace cfg w fd
  rw [hd] at h0
  obtain ⟨h0d, h0o, h0c⟩ := h0
  simp only at h0d h0o h0c
  have hst0 : ∀ g : Int, fd_state w0 g = fd_state w g := by
    intro g; unfold fd_state; rw [h0o]
  have heg := ensure_dirs_slot_getD w0 fd.toNat
  have hel := ensure_dirs_slot_length_le w0 fd.toNat
  have heo := ensure_dirs_slot_open_fds w0 fd.toNat
  have hec := ensure_dirs_slot_cwd w0 fd.toNat
  have hgd := get_name_dirs cfg (ensure_dirs_slot w0 fd.toNat).2 filename
  have hgo := get_name_open_fds cfg (ensure_dirs_slot w0 fd.toNat).2 filename
  have hgc := get_name_cwd cfg (ensure_dirs_slot w0 fd.toNat).2 filename
  rcases register_fd_cases cfg w fd filename hfd w0 d hd with
    ⟨_, h⟩ | ⟨_, _, h⟩ | ⟨_, _, _, h⟩ | ⟨_, _, name, _, h⟩
  · rw [hr] at h
    cases h
    exact ⟨fun i _ => by rw [h0d], by rw [h0d], fun g _ => hst0 g, h0c⟩
  · rw [hr] at h
    cases h
    obtain ⟨c1, _, _, c4, _, c6⟩ := close_keeping_errno_state (ensure_dirs_slot w0 fd.toNat).2 fd
    refine ⟨fun i _ => by rw [c1, heg, h0d], by rw [c1, ← h0d]; exact hel, ?_, ?_⟩
    · intro g hg
      rw [c6 g hg]
      unfold fd_state
      rw [heo, h0o]
    · rw [c4, hec, h0c]
  · rw [hr] at h
    cases h
    obtain ⟨c1, _, _, c4, _, c6⟩ := close_keeping_errno_state
      { (get_name cfg (ensure_dirs_slot w0 fd.toNat).2 filename).2 with
        dirs := (get_name cfg (ensure_dirs_slot w0 fd.toNat).2 filename).2.dirs.set
          fd.toNat none } fd
    refine ⟨fun i hi => ?_, ?_, ?_, ?_⟩
    · rw [c1]
      simp only
      rw [getD_set_ne _ _ _ _ (Ne.symm hi), hgd, heg, h0d]
    · rw [c1]
      simp only [List.length_set]
      rw [hgd, ← h0d]; exact hel
    · intro g hg
      rw [c6 g hg]
      unfold fd_state
      simp only
      rw [hgo, heo, h0o]
    · rw [c4]
      simp only
      rw [hgc, hec, h0c]
  · rw [hr] at h
    cases h
    refine ⟨fun i hi => ?_, ?_, ?_, ?_⟩
    · simp only
      rw [getD_set_ne _ _ _ _ (Ne.symm hi), hgd, heg, h0d]
    · simp only [List.length_set]
      rw [hgd, ← h0d]; exact hel
    · intro g _
      unfold fd_state
      simp only
      rw [hgo, heo, h0o]
    · simp only
      rw [hgc, hec, h0c]

/-- What every call of `_gl_register_dup` leaves alone. -/
theorem register_dup_frame (w : World) (a b : Int) (r : Int × World)
    (hr : _gl_register_dup w a b = some r) :
    0 ≤ a ∧ 0 ≤ b ∧ a ≠ b
    ∧ (∀ i, i ≠ b.toNat → r.2.dirs.getD i none = w.dirs.getD i none)
    ∧ w.dirs.length ≤ r.2.dirs.length
    ∧ (∀ g : Int, g ≠ b → fd_state r.2 g = fd_state w g)
    ∧ r.2.cwd = w.cwd := by
  have hpre : 0 ≤ a ∧ 0 ≤ b ∧ a ≠ b := by
    by_contra hcon
    have : (!(decide (0 ≤ a) && decide (0 ≤ b) && a != b)) = true := by
      by_cases h1 : 0 ≤ a <;> by_cases h2 : 0 ≤ b <;> by_cases h3 : a = b <;> simp_all
    unfold _gl_register_dup at hr
    rw [if_pos this] at hr
    cases hr
  obtain ⟨ha, hb, hab⟩ := hpre
  refine ⟨ha, hb, hab, ?_⟩
  cases hs : w.dirs.getD a.toNat none with
  | none =>
    rw [register_dup_untracked w a b ha hb hab hs] at hr
    cases hr
    by_cases hlt : b < (dirs_allocated w : Int)
    · rw [if_pos hlt]
      exact ⟨fun i hi => getD_set_ne _ _ _ _ (Ne.symm hi), by simp, fun g _ => rfl, rfl⟩
    · rw [if_neg hlt]
      exact ⟨fun i _ => rfl, Nat.le_refl _, fun g _ => rfl, rfl⟩
  | some s =>
    rw [register_dup_tracked w a b s ha hb hab hs] at hr
    have heg := ensure_dirs_slot_getD w b.toNat
    have hel := ensure_dirs_slot_length_le w b.toNat
    have heo := ensure_dirs_slot_open_fds w b.toNat
    have hec := ensure_dirs_slot_cwd w b.toNat
    rcases he : ensure_dirs_slot w b.toNat with ⟨ok, w1⟩
    rw [he] at hr heg hel heo hec
    simp only at heg hel heo hec
    have hst1 : ∀ g : Int, fd_state w1 g = fd_state w g := by
      intro g; unfold fd_state; rw [heo]
    cases ok with
    | false =>
      simp only [Option.some.injEq] at hr
      subst hr
      obtain ⟨c1, _, _, c4, _, c6⟩ := close_keeping_errno_state w1 b
      exact ⟨fun i _ => by rw [c1, heg], by rw [c1]; exact hel,
        fun g hg => by rw [c6 g hg, hst1], by rw [c4, hec]⟩
    | true =>
      have hmd := malloc_dirs w1
      have hmo := malloc_open_fds w1
      have hmc := malloc_cwd w1
      rcases hm : malloc w1 with ⟨ok2, w2⟩
      simp only at hr
      rw [hm] at hr hmd hmo hmc
      simp only at hmd hmo hmc
      have hst2 : ∀ g : Int, fd_state w2 g = fd_state w g := by
        intro g; unfold fd_state; rw [hmo, heo]
      cases ok2 with
      | false =>
        simp only [Option.some.injEq] at hr
        subst hr
        obtain ⟨c1, _, _, c4, _, c6⟩ := close_keeping_errno_state
          { w2 with dirs := w2.dirs.set b.toNat none } b
        refine ⟨fun i hi => ?_, ?_, fun g hg => ?_, ?_⟩
        · rw [c1]; simp only
          rw [getD_set_ne _ _ _ _ (Ne.symm hi), hmd, heg]
        · rw [c1]; simp only [List.length_set]
          rw [hmd]; exact hel
        · rw [c6 g hg]; exact hst2 g
        · rw [c4]; simp only
          rw [hmc, hec]
      | true =>
        simp only [Option.some.injEq] at hr
        subst hr
        refine ⟨fun i hi => ?_, ?_, fun g _ => hst2 g, ?_⟩
        · simp only
          rw [getD_set_ne _ _ _ _ (Ne.symm hi), hmd, heg]
        · simp only [List.length_set]
          rw [hmd]; exact hel
        · simp only
          rw [hmc, hec]

theorem unregister_fd_frame (w : World) (fd : Int) :
    (∀ i, (0 ≤ fd → i ≠ fd.toNat) →
      (_gl_unregister_fd w fd).dirs.getD i none = w.dirs.getD i none)
    ∧ (_gl_unregister_fd w fd).dirs.length = w.dirs.length
    ∧ (_gl_unregister_fd w fd).open_fds = w.open_fds
    ∧ (_gl_unregister_fd w fd).cwd = w.cwd := by
  unfold _gl_unregister_fd
  split
  · rename_i h
    have h0 : 0 ≤ fd := by
      simp only [Bool.and_eq_true, decide_eq_true_eq] at h
      exact h.1
    exact ⟨fun i hi => getD_set_ne _ _ _ _ (Ne.symm (hi h0)), List.length_set _ _ _, rfl, rfl⟩
  · exact ⟨fun i _ => rfl, rfl, rfl, rfl⟩

theorem set_none_of_getD_none (l : List (Option (List Char))) (i : Nat)
    (h : l.getD i none = none) : l.set i none = l := by
  apply List.ext_getElem?
  intro j
  by_cases hj : i = j
  · subst hj
    by_cases hlt : i < l.length
    · rw [List.getElem?_set_eq_of_lt _ hlt]
      rw [List.getD_eq_getElem?_getD, List.getElem?_eq_getElem hlt] at h
      rw [List.getElem?_eq_getElem hlt]
      simpa using h.symm
    · rw [List.set_eq_of_length_le (Nat.le_of_not_lt hlt)]
  · rw [List.getElem?_set_ne hj]

theorem unregister_fd_noop (w : World) (fd : Int)
    (h : fd < 0 ∨ (dirs_allocated w : Int) ≤ fd ∨ (_gl_directory_name w fd).1 = none) :
    _gl_unregister_fd w fd = w := by
  unfold _gl_unregister_fd
  by_cases hc : (decide (0 ≤ fd) && decide (fd < (dirs_allocated w : Int))) = true
  · rw [if_pos hc]
    simp only [Bool.and_eq_true, decide_eq_true_eq] at hc
    rcases h with h | h | h
    · omega
    · omega
    · rw [directory_name_fst, if_pos hc.1] at h
      rw [set_none_of_getD_none _ _ h]
  · rw [if_neg hc]

theorem lookup_same_of_frame (w w1 : World) (g : Int)
    (hd : 0 ≤ g → w1.dirs.getD g.toNat none = w.dirs.getD g.toNat none)
    (hst : fd_state w1 g = fd_state w g) :
    (_gl_directory_name w1 g).1 = (_gl_directory_name w g).1
    ∧ ((_gl_directory_name w g).1 = none →
        (_gl_directory_name w1 g).2.errno = (_gl_directory_name w g).2.errno) := by
  by_cases h0 : 0 ≤ g
  · refine ⟨by rw [directory_name_fst, directory_name_fst, if_pos h0, if_pos h0, hd h0], ?_⟩
    intro hn
    rw [directory_name_fst, if_pos h0] at hn
    rw [directory_name_untracked w g h0 hn,
      directory_name_untracked w1 g h0 ((hd h0).trans hn), hst]
    cases fd_state w g <;> rfl
  · have hneg : g < 0 := by omega
    rw [directory_name_negative w g hneg, directory_name_negative w1 g hneg]
    exact ⟨rfl, fun _ => rfl⟩

theorem register_fd_nonneg (cfg : Config) (w : World) (fd : Int) (filename : List Char)
    (r : Int × World) (hr : _gl_register_fd cfg w fd filename = some r) : 0 ≤ fd := by
  by_contra h
  unfold _gl_register_fd at hr
  simp [h] at hr

/-- C13: for every state and every descriptor `g` other than the target of a hook (`fd` for
`_gl_register_fd` and `_gl_unregister_fd`, `newfd` for `_gl_register_dup`), what
`_gl_directory_name (g)` returns, and the `errno` it sets when it returns NULL, are the same
after the hook as before, whether the hook succeeds or fails and whether or not the table
grows; and `_gl_unregister_fd (fd)` with `fd` negative, `fd >= dirs_allocated` or `fd`
untracked leaves the state as it is. -/
theorem hooks_frame (w : World) (g : Int) :
    (∀ cfg fd filename r, g ≠ fd → _gl_register_fd cfg w fd filename = some r →
      (_gl_directory_name r.2 g).1 = (_gl_directory_name w g).1
      ∧ ((_gl_directory_name w g).1 = none →
          (_gl_directory_name r.2 g).2.errno = (_gl_directory_name w g).2.errno))
    ∧ (∀ fd, g ≠ fd →
      (_gl_directory_name (_gl_unregister_fd w fd) g).1 = (_gl_directory_name w g).1
      ∧ ((_gl_directory_name w g).1 = none →
          (_gl_directory_name (_gl_unregister_fd w fd) g).2.errno
            = (_gl_directory_name w g).2.errno))
    ∧ (∀ oldfd newfd r, g ≠ newfd → _gl_register_dup w oldfd newfd = some r →
      (_gl_directory_name r.2 g).1 = (_gl_directory_name w g).1
      ∧ ((_gl_directory_name w g).1 = none →
          (_gl_directory_name r.2 g).2.errno = (_gl_directory_name w g).2.errno))
    ∧ (∀ fd, (fd < 0 ∨ (dirs_allocated w : Int) ≤ fd ∨ (_gl_directory_name w fd).1 = none) →
      _gl_unregister_fd w fd = w) := by
  refine ⟨?_, ?_, ?_, unregister_fd_noop w⟩
  · intro cfg fd filename r hg hr
    have hfd := register_fd_nonneg cfg w fd filename r hr
    obtain ⟨h1, _, h3, _⟩ := register_fd_frame cfg w fd filename r hfd hr
    exact lookup_same_of_frame w r.2 g (fun h0 => h1 _ (by omega)) (h3 g hg)
  · intro fd hg
    obtain ⟨h1, _, h3, _⟩ := unregister_fd_frame w fd
    refine lookup_same_of_frame w _ g (fun h0 => h1 _ (fun _ => by omega)) ?_
    unfold fd_state
    rw [h3]
  · intro a b r hg hr
    obtain ⟨_, hb, _, h1, _, h3, _⟩ := register_dup_frame w a b r hr
    exact lookup_same_of_frame w r.2 g (fun h0 => h1 _ (by omega)) (h3 g hg)

theorem fchdir_dirs (w : World) (fd : Int) : (fchdir w fd).2.dirs = w.dirs := by
  unfold fchdir
  have hd := directory_name_dirs w fd
  rcases hdn : _gl_directory_name w fd with ⟨name, w1⟩
  rw [hdn] at hd
  cases name with
  | none => exact hd
  | some s =>
    simp only at hd ⊢
    rw [← hd, chdir_eq]
    cases w1.chdir_error s <;> rfl

theorem ensure_dirs_slot_new_allocated_eq (SIZE_MAX allocated fd : Nat)
    (h : max (2 * allocated + 1) (fd + 1) ≤ SIZE_MAX) :
    ensure_dirs_slot_new_allocated SIZE_MAX allocated fd
      = max (2 * allocated + 1) (fd + 1) := by
  unfold ensure_dirs_slot_new_allocated
  have h1 : (2 * allocated + 1) % (SIZE_MAX + 1) = 2 * allocated + 1 :=
    Nat.mod_eq_of_lt (by omega)
  have h2 : (fd + 1) % (SIZE_MAX + 1) = fd + 1 := Nat.mod_eq_of_lt (by omega)
  simp only [h1, h2]
  split <;> omega

/-- Outside the range of descriptor numbers the arithmetic of `size_t` wraps: with 64-bit
`size_t`, an empty table and the index `SIZE_MAX`, lines 250 to 252 compute the capacity 0,
which does not exceed the index. -/
theorem ensure_dirs_slot_new_allocated_wraps :
    ensure_dirs_slot_new_allocated (2 ^ 64 - 1) 0 (2 ^ 64 - 1) = 0
    ∧ max (2 * 0 + 1) (2 ^ 64 - 1 + 1) = 2 ^ 64 := by
  decide

/-- C19: for every state with capacity `n = dirs_allocated` and every index `fd >= n` that is
a descriptor number (`fd <= INT_MAX`, the argument of the hooks being a non-negative `int`,
where a table of `2 * INT_MAX + 1` slots of `sizeof *dirs` bytes each does not exceed
`SIZE_MAX` bytes), the capacity that `ensure_dirs_slot (fd)` computes in the arithmetic of
`size_t` does not wrap and is `max (2 * n + 1, fd + 1)`, nor does the byte count it
requests; the call succeeds exactly when its allocation does; on success the capacity is
that value, which exceeds `fd` and `2 * n`, every slot of index `>= n` is empty and every
slot of index `< n` is as it was; on failure the table and the capacity are unchanged and
`errno` is `ENOMEM`. No operation on descriptor numbers decreases the capacity. -/
theorem ensure_dirs_slot_growth (SIZE_MAX INT_MAX sizeof_dirs : Nat) (w : World) (fd : Nat)
    (hsize : (2 * INT_MAX + 1) * sizeof_dirs ≤ SIZE_MAX) (hpos : 0 < sizeof_dirs)
    (hfd : dirs_allocated w ≤ fd) (hint : fd ≤ INT_MAX) :
    (ensure_dirs_slot w fd).1 = (malloc w).1
    ∧ ensure_dirs_slot_new_allocated SIZE_MAX (dirs_allocated w) fd
        = max (2 * dirs_allocated w + 1) (fd + 1)
    ∧ ensure_dirs_slot_bytes SIZE_MAX sizeof_dirs
          (ensure_dirs_slot_new_allocated SIZE_MAX (dirs_allocated w) fd)
        = max (2 * dirs_allocated w + 1) (fd + 1) * sizeof_dirs
    ∧ ((ensure_dirs_slot w fd).1 = true →
        dirs_allocated (ensure_dirs_slot w fd).2
          = ensure_dirs_slot_new_allocated SIZE_MAX (dirs_allocated w) fd
        ∧ dirs_allocated (ensure_dirs_slot w fd).2 = max (2 * dirs_allocated w + 1) (fd + 1)
        ∧ dirs_allocated (ensure_dirs_slot w fd).2 ≤ SIZE_MAX
        ∧ fd < dirs_allocated (ensure_dirs_slot w fd).2
        ∧ 2 * dirs_allocated w < dirs_allocated (ensure_dirs_slot w fd).2
        ∧ (∀ i, dirs_allocated w ≤ i → (ensure_dirs_slot w fd).2.dirs.getD i none = none)
        ∧ (∀ i, i < dirs_allocated w → (ensure_dirs_slot w fd).2.dirs[i]? = w.dirs[i]?))
    ∧ ((ensure_dirs_slot w fd).1 = false →
        (ensure_dirs_slot w fd).2.dirs = w.dirs
        ∧ dirs_allocated (ensure_dirs_slot w fd).2 = dirs_allocated w
        ∧ (ensure_dirs_slot w fd).2.errno = Errno.ENOMEM)
    ∧ (∀ i, i ≤ INT_MAX →
        dirs_allocated w ≤ dirs_allocated (ensure_dirs_slot w i).2
        ∧ (dirs_allocated w ≤ i → (ensure_dirs_slot w i).1 = true →
            dirs_allocated (ensure_dirs_slot w i).2
              = ensure_dirs_slot_new_allocated SIZE_MAX (dirs_allocated w) i))
    ∧ (∀ cfg g filename r, g ≤ (INT_MAX : Int) → _gl_register_fd cfg w g filename = some r →
        dirs_allocated w ≤ dirs_allocated r.2)
    ∧ (∀ a b r, a ≤ (INT_MAX : Int) → b ≤ (INT_MAX : Int) →
        _gl_register_dup w a b = some r → dirs_allocated w ≤ dirs_allocated r.2)
    ∧ (∀ g, dirs_allocated (_gl_unregister_fd w g) = dirs_allocated w)
    ∧ (∀ g, dirs_allocated (_gl_directory_name w g).2 = dirs_allocated w)
    ∧ (∀ g, dirs_allocated (fchdir w g).2 = dirs_allocated w) := by
  have hslots : 2 * INT_MAX + 1 ≤ SIZE_MAX :=
    Nat.le_trans (Nat.le_mul_of_pos_right _ hpos) hsize
  have hmax : ∀ i, dirs_allocated w ≤ i → i ≤ INT_MAX →
      ensure_dirs_slot_new_allocated SIZE_MAX (dirs_allocated w) i
        = max (2 * dirs_allocated w + 1) (i + 1) := fun i h1 h2 =>
    ensure_dirs_slot_new_allocated_eq SIZE_MAX (dirs_allocated w) i (by omega)
  have hbytes : ensure_dirs_slot_bytes SIZE_MAX sizeof_dirs
        (ensure_dirs_slot_new_allocated SIZE_MAX (dirs_allocated w) fd)
      = max (2 * dirs_allocated w + 1) (fd + 1) * sizeof_dirs := by
    rw [hmax fd hfd hint]
    unfold ensure_dirs_slot_bytes
    apply Nat.mod_eq_of_lt
    have h1 : max (2 * dirs_allocated w + 1) (fd + 1) ≤ 2 * INT_MAX + 1 := by omega
    have h2 := Nat.mul_le_mul_right sizeof_dirs h1
    omega
  have hgrow : ∀ i, dirs_allocated w ≤ i → (ensure_dirs_slot w i).1 = true →
      dirs_allocated (ensure_dirs_slot w i).2 = max (2 * dirs_allocated w + 1) (i + 1) := by
    intro i hi hok
    unfold dirs_allocated at hi ⊢
    rcases ensure_dirs_slot_cases w i with ⟨h1, _⟩ | ⟨_, _, h2⟩ | ⟨_, _, h2⟩
    · omega
    · rw [h2] at hok; cases hok
    · rw [h2]
      simp only [List.length_append, List.length_replicate]
      omega
  refine ⟨?_, hmax fd hfd hint, hbytes, ?_, ?_, ?_, ?_, ?_, ?_, ?_, ?_⟩
  · unfold dirs_allocated at hfd
    rcases ensure_dirs_slot_cases w fd with ⟨h1, _⟩ | ⟨_, h1, h2⟩ | ⟨_, h1, h2⟩
    · omega
    · rw [h2, h1]
    · rw [h2, h1]
  · intro hok
    have hcap := hgrow fd hfd hok
    refine ⟨by rw [hcap, hmax fd hfd hint], hcap, by omega, by omega, by omega, ?_, ?_⟩
    · unfold dirs_allocated at hfd ⊢
      rcases ensure_dirs_slot_cases w fd with ⟨h1, _⟩ | ⟨_, _, h2⟩ | ⟨_, _, h2⟩
      · omega
      · rw [h2] at hok; cases hok
      · rw [h2]
        intro i hi
        rw [getD_append_replicate_none]
        exact getD_none_of_le _ _ hi
    · unfold dirs_allocated at hfd ⊢
      rcases ensure_dirs_slot_cases w fd with ⟨h1, _⟩ | ⟨_, _, h2⟩ | ⟨_, _, h2⟩
      · omega
      · rw [h2] at hok; cases hok
      · rw [h2]
        intro i hi
        exact List.getElem?_append_left hi
  · intro hfail
    obtain ⟨_, h2, h3⟩ := ensure_dirs_slot_fail_state w fd hfail
    exact ⟨h2, by unfold dirs_allocated; rw [h2], h3⟩
  · intro i hi
    refine ⟨ensure_dirs_slot_length_le w i, ?_⟩
    intro hn hok
    rw [hgrow i hn hok, hmax i hn hi]
  · intro cfg g filename r _ hr
    exact (register_fd_frame cfg w g filename r
      (register_fd_nonneg cfg w g filename r hr) hr).2.1
  · intro a b r _ _ hr
    exact (register_dup_frame w a b r hr).2.2.2.2.1
  · intro g
    exact (unregister_fd_frame w g).2.1
  · intro g
    unfold dirs_allocated
    rw [directory_name_dirs]
  · intro g
    unfold dirs_allocated
    rw [fchdir_dirs]

/-- C19, at a concrete input: with 64-bit `size_t`, 32-bit `int` and slots of 8 bytes, the
table of `sample_tracked`, of capacity 4, grown for the indices 5 and 20. -/
theorem ensure_dirs_slot_growth_witness :
    dirs_allocated sample_tracked = 4
    ∧ ensure_dirs_slot_new_allocated (2 ^ 64 - 1) 4 5 = 9
    ∧ dirs_allocated (ensure_dirs_slot sample_tracked 5).2 = 9
    ∧ dirs_allocated (ensure_dirs_slot sample_tracked 20).2 = 21 :=
  ⟨by decide, by decide,
    ((ensure_dirs_slot_growth (2 ^ 64 - 1) (2 ^ 31 - 1) 8 sample_tracked 5
      (by decide) (by decide) (by decide) (by decide)).2.2.2.1 (by decide)).2.1.trans
      (by decide),
    by decide⟩

theorem fstat_is_dir_of_dir (w : World) (fd : Int) (hdir : fd_state w fd = some true) :
    fstat_is_dir w fd = (true, { w with trace := Call.fstat fd :: w.trace }) := by
  have : fd_state { w with trace := Call.fstat fd :: w.trace } fd = some true := hdir
  simp [fstat_is_dir, this]

theorem fstat_is_dir_of_not_dir (w : World) (fd : Int) (hdir : fd_state w fd ≠ some true) :
    (fstat_is_dir w fd).1 = false := by
  rw [(fstat_is_dir_eq w fd).1]
  cases h : fd_state w fd with
  | none => rfl
  | some d =>
    cases d with
    | false => rfl
    | true => exact absurd h hdir

theorem count_close_cons (fd : Int) (c : Call) (t : List Call) (h : c ≠ Call.close fd) :
    (c :: t).count (Call.close fd) = t.count (Call.close fd) :=
  List.count_cons_of_ne (Ne.symm h) t

theorem register_fd_named_trace (w : World) (fd : Int) (filename : List Char) :
    (register_fd_named w fd filename).2.trace.count (Call.close fd)
      = w.trace.count (Call.close fd) := by
  have h1 : (register_fd_grown w fd).2.trace = Call.fstat fd :: w.trace :=
    ensure_dirs_slot_trace _ _
  have h2 := get_name_trace posix (register_fd_grown w fd).2 filename
  unfold register_fd_named
  rcases h2 with h2 | h2 <;> rw [h2, h1]
  · exact count_close_cons fd _ _ (by simp)
  · rw [count_close_cons fd _ _ (by simp), count_close_cons fd _ _ (by simp)]

theorem register_fd_dir_cases (w : World) (fd : Int) (filename : List Char) (hfd : 0 ≤ fd)
    (hdir : fd_state w fd = some true) :
    ((register_fd_grown w fd).1 = false
      ∧ _gl_register_fd posix w fd filename
        = some (close_keeping_errno (register_fd_grown w fd).2 fd))
    ∨ ((register_fd_grown w fd).1 = true ∧ (register_fd_named w fd filename).1 = none
      ∧ _gl_register_fd posix w fd filename
        = some (close_keeping_errno
            { (register_fd_named w fd filename).2 with
              dirs := (register_fd_named w fd filename).2.dirs.set fd.toNat none } fd))
    ∨ ((register_fd_grown w fd).1 = true
      ∧ ∃ name, (register_fd_named w fd filename).1 = some name
        ∧ _gl_register_fd posix w fd filename
          = some (fd, { (register_fd_named w fd filename).2 with
              dirs := (register_fd_named w fd filename).2.dirs.set fd.toNat (some name) })) := by
  have hrep : posix.REPLACE_OPEN_DIRECTORY = false := rfl
  rcases register_fd_cases posix w fd filename hfd _ true
      (by rw [hrep]; simpa using fstat_is_dir_of_dir w fd hdir)
    with ⟨h, _⟩ | ⟨_, h1, h2⟩ | ⟨_, h1, h2, h3⟩ | ⟨_, h1, name, h2, h3⟩
  · cases h
  · exact Or.inl ⟨h1, h2⟩
  · exact Or.inr (Or.inl ⟨h1, h2, h3⟩)
  · exact Or.inr (Or.inr ⟨h1, name, h2, h3⟩)

/-- C11: in the POSIX configuration (`REPLACE_OPEN_DIRECTORY` is 0), for every state,
descriptor `fd >= 0` and `filename`: if `fd` is not a directory, `_gl_register_fd` returns
`fd` and leaves the registry unchanged; if `fd` is a directory and neither growing the table
nor resolving the name fails, it returns `fd`, which then is tracked with the resolved name;
if growing the table fails, or resolving the name fails, it returns -1, has closed `fd`
exactly once, leaves `errno` as the failing step set it (`ENOMEM` for the table) also when
that `close` reports an error `e` of its own and sets `errno` to `e`, and `fd` is
untracked. -/
theorem register_fd_outcomes (w : World) (fd : Int) (filename : List Char) (hfd : 0 ≤ fd) :
    (fd_state w fd ≠ some true →
      ∃ w1, _gl_register_fd posix w fd filename = some (fd, w1) ∧ w1.dirs = w.dirs)
    ∧ (fd_state w fd = some true → (register_fd_grown w fd).1 = true →
      ∀ name, (register_fd_named w fd filename).1 = some name →
        ∃ w1, _gl_register_fd posix w fd filename = some (fd, w1)
          ∧ (_gl_directory_name w1 fd).1 = some name)
    ∧ (fd_state w fd = some true → (register_fd_grown w fd).1 = false →
      ∃ w1, _gl_register_fd posix w fd filename = some (-1, w1)
        ∧ w1.errno = (register_fd_grown w fd).2.errno ∧ w1.errno = Errno.ENOMEM
        ∧ w1.trace = Call.close fd :: (register_fd_grown w fd).2.trace
        ∧ w1.trace.count (Call.close fd) = w.trace.count (Call.close fd) + 1
        ∧ fd_state w1 fd = none
        ∧ (_gl_directory_name w1 fd).1 = none
        ∧ (∀ e, w.close_error fd.toNat = some e →
            (close (register_fd_grown w fd).2 fd).2.errno = e))
    ∧ (fd_state w fd = some true → (register_fd_grown w fd).1 = true →
      (register_fd_named w fd filename).1 = none →
      ∃ w1, _gl_register_fd posix w fd filename = some (-1, w1)
        ∧ w1.errno = (register_fd_named w fd filename).2.errno
        ∧ w1.trace = Call.close fd :: (register_fd_named w fd filename).2.trace
        ∧ w1.trace.count (Call.close fd) = w.trace.count (Call.close fd) + 1
        ∧ fd_state w1 fd = none
        ∧ (_gl_directory_name w1 fd).1 = none
        ∧ (∀ e, w.close_error fd.toNat = some e →
            (close (register_fd_named w fd filename).2 fd).2.errno = e)) := by
  have hrep : posix.REPLACE_OPEN_DIRECTORY = false := rfl
  have hgo : fd_state (register_fd_grown w fd).2 fd = fd_state w fd := by
    unfold fd_state register_fd_grown
    rw [ensure_dirs_slot_open_fds]
  have hgc : (register_fd_grown w fd).2.close_error = w.close_error := by
    unfold register_fd_grown
    rw [ensure_dirs_slot_close_error]
  have hno : fd_state (register_fd_named w fd filename).2 fd = fd_state w fd := by
    rw [← hgo]
    unfold fd_state register_fd_named
    rw [get_name_open_fds]
  have hnc : (register_fd_named w fd filename).2.close_error = w.close_error := by
    rw [← hgc]
    unfold register_fd_named
    rw [get_name_close_error]
  refine ⟨?_, ?_, ?_, ?_⟩
  · intro hnd
    rcases hd : fstat_is_dir w fd with ⟨d, w0⟩
    have hd1 := fstat_is_dir_of_not_dir w fd hnd
    have hd2 := (fstat_is_dir_eq w fd).2.1
    rw [hd] at hd1 hd2
    simp only at hd1 hd2
    subst hd1
    rcases register_fd_cases posix w fd filename hfd w0 false
        (by rw [hrep]; simpa using hd) with ⟨_, h⟩ | ⟨h, _⟩ | ⟨h, _⟩ | ⟨h, _⟩
    · exact ⟨w0, h, hd2⟩
    · cases h
    · cases h
    · cases h
  · intro hdir hg name hn
    have hlen : fd.toNat < (register_fd_named w fd filename).2.dirs.length := by
      unfold register_fd_named
      rw [get_name_dirs]
      exact ensure_dirs_slot_length _ _ hg
    rcases register_fd_dir_cases w fd filename hfd hdir with
      ⟨h, _⟩ | ⟨_, h, _⟩ | ⟨_, name1, h1, h2⟩
    · rw [hg] at h; cases h
    · rw [hn] at h; cases h
    · rw [hn] at h1
      cases h1
      refine ⟨_, h2, ?_⟩
      rw [directory_name_fst, if_pos hfd]
      exact getD_set_self _ _ _ hlen
  · intro hdir hg
    obtain ⟨c1, c2, c3, _, c5, _⟩ := close_keeping_errno_state (register_fd_grown w fd).2 fd
    have hfail : w.dirs.length ≤ fd.toNat ∧ (register_fd_grown w fd).2.dirs = w.dirs
        ∧ (register_fd_grown w fd).2.errno = Errno.ENOMEM :=
      ensure_dirs_slot_fail_state _ _ hg
    obtain ⟨f1, f2, f3⟩ := hfail
    have htr : (register_fd_grown w fd).2.trace = Call.fstat fd :: w.trace :=
      ensure_dirs_slot_trace _ _
    rcases register_fd_dir_cases w fd filename hfd hdir with
      ⟨_, h⟩ | ⟨h, _⟩ | ⟨h, _⟩
    · refine ⟨(close_keeping_errno (register_fd_grown w fd).2 fd).2, h, c2, c2.trans f3, c3,
        ?_, c5, ?_, ?_⟩
      · rw [c3, htr, List.count_cons_self, count_close_cons fd _ _ (by simp)]
      · rw [directory_name_fst, if_pos hfd, c1]
        exact getD_none_of_le _ _ (by rw [f2]; exact f1)
      · intro e he
        exact close_errno_of_error _ fd true e (hgo.trans hdir) (by rw [hgc]; exact he)
    · rw [hg] at h; cases h
    · rw [hg] at h; cases h
  · intro hdir hg hn
    obtain ⟨c1, c2, c3, _, c5, _⟩ := close_keeping_errno_state
      { (register_fd_named w fd filename).2 with
        dirs := (register_fd_named w fd filename).2.dirs.set fd.toNat none } fd
    have hlen : fd.toNat < (register_fd_named w fd filename).2.dirs.length := by
      unfold register_fd_named
      rw [get_name_dirs]
      exact ensure_dirs_slot_length _ _ hg
    rcases register_fd_dir_cases w fd filename hfd hdir with
      ⟨h, _⟩ | ⟨_, _, h⟩ | ⟨_, name1, h1, _⟩
    · rw [hg] at h; cases h
    · refine ⟨(close_keeping_errno
          { (register_fd_named w fd filename).2 with
            dirs := (register_fd_named w fd filename).2.dirs.set fd.toNat none } fd).2,
        h, c2, c3, ?_, c5, ?_, ?_⟩
      · rw [c3, List.count_cons_self]
        exact congrArg (· + 1) (register_fd_named_trace w fd filename)
      · rw [directory_name_fst, if_pos hfd, c1]
        exact getD_set_self _ _ _ hlen
      · intro e he
        exact close_errno_of_error _ fd true e (hno.trans hdir) (by rw [hnc]; exact he)
    · rw [hn] at h1; cases h1

/-! ## Invariants of the registry -/

theorem concat_head (c dir : List Char) (hc : c.head? = some '/') :
    ∃ r o, mfile_name_concat posix true c dir = some (r, o) ∧ r.head? = some '/' := by
  have hne : c ≠ [] := by
    intro h; rw [h] at hc; cases hc
  by_cases hall : ∀ x ∈ c, x = '/'
  · rw [mfile_name_concat_slashes c dir hall]
    exact ⟨_, _, rfl, by rw [head_append_of_ne_nil c _ hne]; exact hc⟩
  · obtain ⟨A, R, T, hS, ho, hcase⟩ := last_component_offset_split c
    have hR : R ≠ [] := by
      rcases hcase with ⟨_, _, h⟩ | h
      · exact absurd h hall
      · exact h
    have hAR : A ++ R ≠ [] := by simp [hR]
    rw [mfile_name_concat_split c dir A R T hS ho hR]
    refine ⟨_, _, rfl, ?_⟩
    rw [List.append_assoc (A ++ R), head_append_of_ne_nil (A ++ R) _ hAR]
    rw [hS.eq, head_append_of_ne_nil (A ++ R) T hAR] at hc
    exact hc

theorem head_ne_nil (s : List Char) (h : s.head? = some '/') : s ≠ [] ∧ s.head? = some '/' :=
  ⟨fun hs => (by rw [hs] at h; cases h), h⟩

theorem get_name_absolute (w : World) (filename name : List Char) (w1 : World)
    (hcwd : cwd_absolute w) (h : get_name posix w filename = (some name, w1)) :
    name ≠ [] ∧ name.head? = some '/' := by
  apply head_ne_nil
  unfold get_name at h
  by_cases habs : posix.IS_ABSOLUTE_FILE_NAME filename = true
  · rw [if_pos habs] at h
    unfold strdup at h
    generalize malloc w = m at h
    rcases m with ⟨ok, w2⟩
    cases ok
    · simp at h
    · simp only [Prod.mk.injEq, Option.some.injEq] at h
      rw [← h.1]
      exact (posix_is_absolute_iff filename).mp habs
  · rw [if_neg habs] at h
    cases hc : w.cwd with
    | error e =>
      have hg : getcwd w = (none, { w with trace := Call.getcwd :: w.trace, errno := e }) := by
        unfold getcwd
        simp only [hc]
      rw [hg] at h
      simp at h
    | ok c =>
      have hch := hcwd c hc
      have hg : getcwd w = (match malloc { w with trace := Call.getcwd :: w.trace } with
          | (true, w1) => (some c, w1)
          | (false, w1) => (none, w1)) := by
        unfold getcwd
        simp only [hc]
      rw [hg] at h
      generalize malloc { w with trace := Call.getcwd :: w.trace } = m at h
      rcases m with ⟨ok, w2⟩
      cases ok
      · simp at h
      · simp only at h
        split at h
        · simp only [Prod.mk.injEq, Option.some.injEq] at h
          rw [← h.1]; exact hch
        · generalize malloc w2 = m2 at h
          rcases m2 with ⟨ok2, w3⟩
          cases ok2
          · simp [mfile_name_concat] at h
          · obtain ⟨r, o, hr, hrh⟩ := concat_head c filename hch
            rw [hr] at h
            simp only [Option.map_some', Prod.mk.injEq, Option.some.injEq] at h
            rw [← h.1]; exact hrh

/-- What `_gl_register_fd` does to its own slot and descriptor. -/
theorem register_fd_slot (w : World) (fd : Int) (filename : List Char) (r : Int × World)
    (hfd : 0 ≤ fd) (hr : _gl_register_fd posix w fd filename = some r) :
    (fd_state w fd ≠ some true ∧ r.2.dirs.getD fd.toNat none = w.dirs.getD fd.toNat none
      ∧ fd_state r.2 fd = fd_state w fd)
    ∨ (r.2.dirs.getD fd.toNat none = none ∧ fd_state r.2 fd = none)
    ∨ (fd_state w fd = some true ∧ fd_state r.2 fd = some true
      ∧ ∃ name w2 w3, w2.cwd = w.cwd ∧ get_name posix w2 filename = (some name, w3)
        ∧ r.2.dirs.getD fd.toNat none = some name) := by
  have hrep : posix.REPLACE_OPEN_DIRECTORY = false := rfl
  by_cases hdir : fd_state w fd = some true
  · have hlen : (register_fd_grown w fd).1 = true →
        fd.toNat < (register_fd_named w fd filename).2.dirs.length := by
      intro hg
      unfold register_fd_named
      rw [get_name_dirs]
      exact ensure_dirs_slot_length _ _ hg
    right
    rcases register_fd_dir_cases w fd filename hfd hdir with
      ⟨hg, h⟩ | ⟨hg, _, h⟩ | ⟨hg, name, hn, h⟩
    · rw [hr] at h
      cases h
      obtain ⟨c1, _, _, _, c5, _⟩ := close_keeping_errno_state (register_fd_grown w fd).2 fd
      have hfail : w.dirs.length ≤ fd.toNat ∧ (register_fd_grown w fd).2.dirs = w.dirs
          ∧ (register_fd_grown w fd).2.errno = Errno.ENOMEM :=
        ensure_dirs_slot_fail_state _ _ hg
      exact Or.inl ⟨by rw [c1, hfail.2.1]; exact getD_none_of_le _ _ hfail.1, c5⟩
    · rw [hr] at h
      cases h
      obtain ⟨c1, _, _, _, c5, _⟩ := close_keeping_errno_state
        { (register_fd_named w fd filename).2 with
          dirs := (register_fd_named w fd filename).2.dirs.set fd.toNat none } fd
      exact Or.inl ⟨by rw [c1]; exact getD_set_self _ _ _ (hlen hg), c5⟩
    · rw [hr] at h
      cases h
      refine Or.inr ⟨hdir, ?_, name, (register_fd_grown w fd).2,
        (register_fd_named w fd filename).2, ?_, ?_, getD_set_self _ _ _ (hlen hg)⟩
      · have h1 : (register_fd_named w fd filename).2.open_fds = w.open_fds := by
          unfold register_fd_named
          rw [get_name_open_fds]
          exact ensure_dirs_slot_open_fds _ _
        unfold fd_state at hdir ⊢
        simp only
        rw [h1]; exact hdir
      · exact ensure_dirs_slot_cwd _ _
      · exact Prod.ext hn rfl
  · left
    rcases hd : fstat_is_dir w fd with ⟨d, w0⟩
    have hd1 := fstat_is_dir_of_not_dir w fd hdir
    obtain ⟨_, e2, e3, _, _⟩ := fstat_is_dir_eq w fd
    rw [hd] at hd1 e2 e3
    simp only at hd1 e2 e3
    subst hd1
    rcases register_fd_cases posix w fd filename hfd w0 false
        (by rw [hrep]; simpa using hd) with ⟨_, h⟩ | ⟨h, _⟩ | ⟨h, _⟩ | ⟨h, _⟩
    · rw [hr] at h
      cases h
      refine ⟨hdir, by rw [e2], ?_⟩
      unfold fd_state
      simp only
      rw [e3]
    · cases h
    · cases h
    · cases h

/-- What `_gl_register_dup` does to the slot and descriptor `newfd`. -/
theorem register_dup_slot (w : World) (a b : Int) (r : Int × World)
    (hr : _gl_register_dup w a b = some r) :
    (w.dirs.getD a.toNat none = none ∧ r.2.dirs.getD b.toNat none = none
      ∧ fd_state r.2 b = fd_state w b)
    ∨ ((∃ s, w.dirs.getD a.toNat none = some s) ∧ r.2.dirs.getD b.toNat none = none
      ∧ fd_state r.2 b = none)
    ∨ (∃ s, w.dirs.getD a.toNat none = some s ∧ r.2.dirs.getD b.toNat none = some s
      ∧ fd_state r.2 b = fd_state w b) := by
  obtain ⟨ha, hb, hab, _⟩ := register_dup_frame w a b r hr
  cases hs : w.dirs.getD a.toNat none with
  | none =>
    left
    rw [register_dup_untracked w a b ha hb hab hs] at hr
    cases hr
    refine ⟨rfl, ?_, ?_⟩
    · by_cases hlt : b < (dirs_allocated w : Int)
      · rw [if_pos hlt]
        have hl : b.toNat < w.dirs.length := by simp only [dirs_allocated] at hlt; omega
        exact getD_set_self w.dirs _ _ hl
      · rw [if_neg hlt]
        have hl : w.dirs.length ≤ b.toNat := by simp only [dirs_allocated] at hlt; omega
        exact getD_none_of_le w.dirs _ hl
    · by_cases hlt : b < (dirs_allocated w : Int)
      · rw [if_pos hlt]; rfl
      · rw [if_neg hlt]
  | some s =>
    right
    rw [register_dup_tracked w a b s ha hb hab hs] at hr
    have hel := ensure_dirs_slot_length w b.toNat
    have heo := ensure_dirs_slot_open_fds w b.toNat
    have hef := ensure_dirs_slot_fail_state w b.toNat
    rcases he : ensure_dirs_slot w b.toNat with ⟨ok, w1⟩
    rw [he] at hr hel heo hef
    simp only at hel heo hef
    cases ok with
    | false =>
      simp only [Option.some.injEq] at hr
      subst hr
      obtain ⟨c1, _, _, _, c5, _⟩ := close_keeping_errno_state w1 b
      obtain ⟨f1, f2, _⟩ := hef rfl
      exact Or.inl ⟨⟨s, rfl⟩, by rw [c1, f2]; exact getD_none_of_le _ _ f1, c5⟩
    | true =>
      have hmd := malloc_dirs w1
      have hmo := malloc_open_fds w1
      rcases hm : malloc w1 with ⟨ok2, w2⟩
      simp only at hr
      rw [hm] at hr hmd hmo
      simp only at hmd hmo
      have hlen : b.toNat < w2.dirs.length := by rw [hmd]; exact hel rfl
      cases ok2 with
      | false =>
        simp only [Option.some.injEq] at hr
        subst hr
        obtain ⟨c1, _, _, _, c5, _⟩ := close_keeping_errno_state
          { w2 with dirs := w2.dirs.set b.toNat none } b
        exact Or.inl ⟨⟨s, rfl⟩, by rw [c1]; exact getD_set_self _ _ _ hlen, c5⟩
      | true =>
        simp only [Option.some.injEq] at hr
        subst hr
        refine Or.inr ⟨s, rfl, getD_set_self _ _ _ hlen, ?_⟩
        unfold fd_state
        simp only
        rw [hmo, heo]

theorem hook_step_absolute (w w1 : World) (h : Hook) (hn : names_absolute w)
    (hc : cwd_absolute w) (hs : hook_step posix w h = some w1) :
    names_absolute w1 ∧ cwd_absolute w1 := by
  cases h with
  | register_fd fd filename =>
    simp only [hook_step, Option.map_eq_some'] at hs
    obtain ⟨r, hr, rfl⟩ := hs
    have hfd := register_fd_nonneg posix w fd filename r hr
    obtain ⟨f1, _, _, f4⟩ := register_fd_frame posix w fd filename r hfd hr
    refine ⟨?_, by unfold cwd_absolute; rw [f4]; exact hc⟩
    intro i s hi
    by_cases hif : i = fd.toNat
    · subst hif
      rcases register_fd_slot w fd filename r hfd hr with
        ⟨_, h1, _⟩ | ⟨h1, _⟩ | ⟨_, _, name, w2, w3, hcw, hg, h1⟩
      · rw [h1] at hi; exact hn _ s hi
      · rw [h1] at hi; cases hi
      · rw [h1] at hi
        cases hi
        exact get_name_absolute w2 filename s w3 (by unfold cwd_absolute; rw [hcw]; exact hc) hg
    · rw [f1 i hif] at hi
      exact hn i s hi
  | register_dup a b =>
    simp only [hook_step, Option.map_eq_some'] at hs
    obtain ⟨r, hr, rfl⟩ := hs
    obtain ⟨_, _, _, f1, _, _, f4⟩ := register_dup_frame w a b r hr
    refine ⟨?_, by unfold cwd_absolute; rw [f4]; exact hc⟩
    intro i s hi
    by_cases hif : i = b.toNat
    · subst hif
      rcases register_dup_slot w a b r hr with ⟨_, h1, _⟩ | ⟨_, h1, _⟩ | ⟨t, h0, h1, _⟩
      · rw [h1] at hi; cases hi
      · rw [h1] at hi; cases hi
      · rw [h1] at hi
        cases hi
        exact hn _ s h0
    · rw [f1 i hif] at hi
      exact hn i s hi
  | unregister_fd fd =>
    simp only [hook_step, Option.some.injEq] at hs
    subst hs
    obtain ⟨f1, _, _, f4⟩ := unregister_fd_frame w fd
    refine ⟨?_, by unfold cwd_absolute; rw [f4]; exact hc⟩
    intro i s hi
    by_cases hif : 0 ≤ fd ∧ i = fd.toNat
    · rw [hif.2, unregister_fd_slot w fd hif.1] at hi
      cases hi
    · rw [f1 i (fun h0 hi2 => hif ⟨h0, hi2⟩)] at hi
      exact hn i s hi

theorem hook_run_absolute (hooks : List Hook) : ∀ (w w1 : World), names_absolute w →
    cwd_absolute w → hook_run posix w hooks = some w1 → names_absolute w1 ∧ cwd_absolute w1 := by
  induction hooks with
  | nil =>
    intro w w1 hn hc hr
    simp only [hook_run, Option.some.injEq] at hr
    subst hr
    exact ⟨hn, hc⟩
  | cons h rest ih =>
    intro w w1 hn hc hr
    simp only [hook_run, Option.bind_eq_some] at hr
    obtain ⟨w2, h2, h3⟩ := hr
    obtain ⟨hn2, hc2⟩ := hook_step_absolute w w2 h hn hc h2
    exact ih w2 w1 hn2 hc2 h3

theorem names_absolute_of_empty (w : World) (h : w.dirs = []) : names_absolute w := by
  intro i s hi
  rw [h] at hi
  simp at hi

theorem process_step_absolute (w w1 : World) (e : Event) (hn : names_absolute w)
    (hc : cwd_absolute w) (hs : process_step posix w e = some w1) :
    names_absolute w1 ∧ cwd_absolute w1 := by
  cases e with
  | opened fd is_dir filename =>
    simp only [process_step] at hs
    split at hs
    · exact hook_step_absolute (open_descriptor w fd is_dir) w1 _ hn hc hs
    · cases hs
  | duplicated a b =>
    simp only [process_step] at hs
    split at hs
    · refine hook_step_absolute _ w1 _ ?_ ?_ hs
      · unfold names_absolute dup2
        simp only
        split
        · exact hn
        · split
          · exact hn
          · split <;> exact hn
      · unfold cwd_absolute dup2
        simp only
        split
        · exact hc
        · split
          · exact hc
          · split <;> exact hc
    · cases hs
  | closed fd =>
    simp only [process_step] at hs
    refine hook_step_absolute _ w1 _ ?_ ?_ hs
    · unfold names_absolute
      rw [(close_dirs_cwd w fd).1]
      exact hn
    · unfold cwd_absolute
      rw [(close_dirs_cwd w fd).2]
      exact hc

theorem process_run_absolute (events : List Event) : ∀ (w w1 : World), names_absolute w →
    cwd_absolute w → process_run posix w events = some w1 →
    names_absolute w1 ∧ cwd_absolute w1 := by
  induction events with
  | nil =>
    intro w w1 hn hc hr
    simp only [process_run, Option.some.injEq] at hr
    subst hr
    exact ⟨hn, hc⟩
  | cons e rest ih =>
    intro w w1 hn hc hr
    simp only [process_run, Option.bind_eq_some] at hr
    obtain ⟨w2, h2, h3⟩ := hr
    obtain ⟨hn2, hc2⟩ := process_step_absolute w w2 e hn hc h2
    exact ih w2 w1 hn2 hc2 h3

/-- C14: provided `getcwd` returns only paths beginning with `/`, in every state reached
from the empty registry through calls of `_gl_register_fd`, `_gl_register_dup` and
`_gl_unregister_fd` (called directly, or by the wrappers of open, dup and close), every
tracked path is non-empty and begins with `/`; and for every `filename`, a name that
`get_name (filename)` returns is non-empty and begins with `/`. -/
theorem tracked_names_absolute (w0 : World) (hinit : w0.dirs = []) (hcwd : cwd_absolute w0) :
    (∀ hooks w, hook_run posix w0 hooks = some w → names_absolute w)
    ∧ (∀ events w, process_run posix w0 events = some w → names_absolute w)
    ∧ (∀ (w : World) (filename name : List Char) (w1 : World), cwd_absolute w →
        get_name posix w filename = (some name, w1) → name ≠ [] ∧ name.head? = some '/') :=
  ⟨fun hooks w hr =>
      (hook_run_absolute hooks w0 w (names_absolute_of_empty w0 hinit) hcwd hr).1,
    fun events w hr =>
      (process_run_absolute events w0 w (names_absolute_of_empty w0 hinit) hcwd hr).1,
    get_name_absolute⟩

/-- C14, at a concrete input: in `sample_world`, descriptor 3 registered for "x" and
duplicated to descriptor 5. -/
theorem tracked_names_absolute_witness :
    (hook_run posix sample_world
        [Hook.register_fd 3 "x".toList, Hook.register_dup 3 5]).map (fun w => w.dirs)
      = some [none, none, none, some "/home/x".toList, none, some "/home/x".toList,
          none, none, none]
    ∧ ∀ w, hook_run posix sample_world
        [Hook.register_fd 3 "x".toList, Hook.register_dup 3 5] = some w → names_absolute w :=
  ⟨by decide,
    (tracked_names_absolute sample_world rfl (by
      intro c hc
      simp only [sample_world, Except.ok.injEq] at hc
      rw [← hc]
      rfl)).1 _⟩

/-- C11, at concrete inputs: the directory descriptor 3 registered with and without
memory, and the descriptor 4 of a regular file. Without memory the `close` of the failure
exit sets `errno` to 5, and the hook leaves `ENOMEM`. -/
theorem register_fd_outcomes_witness :
    (∃ w1, _gl_register_fd posix sample_world 3 "/tmp".toList = some (3, w1)
      ∧ (_gl_directory_name w1 3).1 = some "/tmp".toList)
    ∧ (_gl_register_fd posix sample_no_memory 3 "/tmp".toList).map
        (fun r => (r.1, r.2.errno, r.2.trace))
      = some (-1, Errno.ENOMEM, [Call.close 3, Call.fstat 3])
    ∧ (close (register_fd_grown sample_no_memory 3).2 3).2.errno = Errno.other 5
    ∧ (∃ w1, _gl_register_fd posix sample_no_memory 3 "/tmp".toList = some (-1, w1)
      ∧ w1.errno = Errno.ENOMEM)
    ∧ (_gl_register_fd posix sample_no_memory 3 "/tmp".toList).map
        (fun r => (fd_state r.2 3, (_gl_directory_name r.2 3).1))
      = some (none, none)
    ∧ (_gl_register_fd posix sample_world 4 "/tmp".toList).map (fun r => (r.1, r.2.dirs))
      = some (4, []) :=
  ⟨(register_fd_outcomes sample_world 3 "/tmp".toList (by decide)).2.1 (by decide) (by decide)
      "/tmp".toList (by decide),
    by decide, by decide,
    ((register_fd_outcomes sample_no_memory 3 "/tmp".toList (by decide)).2.2.1
      (by decide) (by decide)).imp (fun _ h => ⟨h.1, h.2.2.1⟩),
    by decide, by decide⟩

end Fchdir
